import Mathlib

/-!
WebscraperJS: a shallow embedding of the crawl / clean / chunk pipeline.

Embedded sources:

* `src/config.js`                  : `CONFIG`
* `src/utils/content-cleaner.js`   : `ContentCleaner.cleanText`, `ContentCleaner.chunkText`,
  `ContentCleaner.cleanHtmlContent`
* `src/utils/language-detector.js` : `LanguageDetector.detectLanguage`, `detectFromUrl`
* `src/utils/pdf-processor.js`     : `PDFProcessor.isPDFUrl`, `downloadAndProcessPDF`
* `src/scraper.js`                 : `StandardBankScraper` (`scrape`, `processUrl`,
  `processHTMLPage`, `processPDF`, `addLinksToQueue`)

A JavaScript string is a sequence of UTF-16 code units; `length`, `split`, `includes`,
`trim` and regular expressions without the `u` flag all work on code units, so a string is
modelled as a list of code units (`Str`).  External collaborators (the browser, the PDF
extractor, `franc`, the WHATWG `URL` parser) are parameters of the model.
-/

namespace WebscraperJS

/-! ## Strings -/

/-- A JavaScript string: its sequence of UTF-16 code units. -/
abbrev Str := List Nat

/-- The code units of a literal whose characters all lie in the Basic Multilingual Plane. -/
def str (s : String) : Str := s.toList.map Char.toNat

/-- Model of `String.prototype.split(" ")`: cut at every single space; the pieces may be empty and
the result always has at least one piece (`"".split(" ")` is `[""]`). -/
def split : Str → List Str
  | [] => [[]]
  | c :: cs =>
    if c = 32 then [] :: split cs
    else
      match split cs with
      | [] => [[c]]
      | w :: ws => (c :: w) :: ws

/-- Model of `Array.prototype.join(" ")`. -/
def join : List Str → Str
  | [] => []
  | [w] => w
  | w :: ws => w ++ 32 :: join ws

/-- Model of `Array.prototype.slice(start, end)` for non-negative integer bounds. -/
def slice {α : Type} (xs : List α) (start stop : Nat) : List α :=
  (xs.drop start).take (stop - start)

/-- Model of `String.prototype.includes(sub)` (also used for `Array.prototype.includes` on
strings through `List.contains`): `sub` occurs as a contiguous block of `s`. -/
def includes (s sub : Str) : Bool :=
  s.tails.any (fun t => sub.isPrefixOf t)

/-! ## `src/config.js` -/

/-- The fields of `CONFIG` that the modelled code reads. -/
structure Config where
  TARGET_DOMAIN : Str
  BASE_URL : Str
  MAX_CONCURRENT_PAGES : Nat
  MAX_PAGES : Nat
  CHUNK_SIZE : Nat
  MIN_CONTENT_LENGTH : Nat
  PDF_EXTENSIONS : List Str

/-- The values of `src/config.js`. -/
def CONFIG : Config where
  TARGET_DOMAIN := str "standardbank.co.mz"
  BASE_URL := str "https://www.standardbank.co.mz"
  MAX_CONCURRENT_PAGES := 5
  MAX_PAGES := 1000
  CHUNK_SIZE := 500
  MIN_CONTENT_LENGTH := 50
  PDF_EXTENSIONS := [str ".pdf"]

/-! ## `ContentCleaner.chunkText` -/

/-- The `for (let i = 0; i < words.length; i += chunkSize)` loop of `chunkText`, from loop
index `i` with the chunks pushed so far.  One unit of fuel is spent per evaluation of the loop
condition; `none` means the fuel ran out. -/
def chunkLoop (cfg : Config) (words : List Str) (chunkSize : Nat) :
    Nat → Nat → List Str → Option (List Str)
  | 0, _, _ => none
  | fuel + 1, i, chunks =>
    if i < words.length then
      let chunk := join (slice words i (i + chunkSize))
      if cfg.MIN_CONTENT_LENGTH ≤ chunk.length then
        chunkLoop cfg words chunkSize fuel (i + chunkSize) (chunks ++ [chunk])
      else
        chunkLoop cfg words chunkSize fuel (i + chunkSize) chunks
    else some chunks

/-- The function `ContentCleaner.chunkText(text, chunkSize)`.  The loop is given `words.length + 1` units of
fuel, which is enough for every `chunkSize ≥ 1`; with `chunkSize = 0` the source loop never
terminates and the model returns `none`. -/
def chunkText (cfg : Config) (text : Str) (chunkSize : Nat) : Option (List Str) :=
  let words := split text
  match chunkLoop cfg words chunkSize (words.length + 1) 0 [] with
  | none => none
  | some chunks => some (if chunks.length > 0 then chunks else [text])

/-- Proof helper: the word groups `words.slice(i, i + chunkSize)` that the loop of `chunkText`
visits from index `i`, before the minimum-length filter (same fuel as `chunkLoop`). -/
def groupsFrom (words : List Str) (chunkSize : Nat) : Nat → Nat → List (List Str)
  | 0, _ => []
  | fuel + 1, i =>
    if i < words.length then
      slice words i (i + chunkSize) :: groupsFrom words chunkSize fuel (i + chunkSize)
    else []

/-! ## `ContentCleaner.cleanText` -/

/-- The class `\s` of a JavaScript regular expression, which is also the set of code units
removed by `String.prototype.trim` (white space and line terminators). -/
def isWhiteSpace (c : Nat) : Bool :=
  c == 9 || c == 10 || c == 11 || c == 12 || c == 13 || c == 32 || c == 0xA0 || c == 0x1680 ||
  (0x2000 ≤ c && c ≤ 0x200A) || c == 0x2028 || c == 0x2029 || c == 0x202F || c == 0x205F ||
  c == 0x3000 || c == 0xFEFF

/-- The class `\w`: `[A-Za-z0-9_]`. -/
def isWordChar (c : Nat) : Bool :=
  (48 ≤ c && c ≤ 57) || (65 ≤ c && c ≤ 90) || c == 95 || (97 ≤ c && c ≤ 122)

/-- The class `[.,!?;:]`. -/
def isPunctuation (c : Nat) : Bool :=
  c == 46 || c == 44 || c == 33 || c == 63 || c == 59 || c == 58

/-- The complement of the class `[^\w\s\u00C0-\u017F.,!?;:()\-"']`: the code units that the
second replacement of `cleanText` keeps. -/
def isKept (c : Nat) : Bool :=
  isWordChar c || isWhiteSpace c || (0xC0 ≤ c && c ≤ 0x17F) || isPunctuation c ||
  c == 40 || c == 41 || c == 45 || c == 34 || c == 39

/-- The replacement `.replace(/\s+/g, " ")`: every maximal run of white space becomes one space.
The space is emitted at the last code unit of the run. -/
def collapseWhitespace : Str → Str
  | [] => []
  | c :: cs =>
    if isWhiteSpace c then
      match cs with
      | [] => [32]
      | d :: _ => if isWhiteSpace d then collapseWhitespace cs else 32 :: collapseWhitespace cs
    else c :: collapseWhitespace cs

/-- The replacement `.replace(/[^\w\s\u00C0-\u017F.,!?;:()\-"']/g, "")`. -/
def removeSpecial (s : Str) : Str := s.filter isKept

/-- The replacement `.replace(/[.,!?;:]{2,}/g, ".")`: every maximal run of two or more
punctuation marks becomes one full stop; a single mark stays.  `inRun` tells that the previous
code unit belongs to a run whose full stop has been emitted already. -/
def collapsePunctuationAux : Bool → Str → Str
  | _, [] => []
  | inRun, c :: cs =>
    if isPunctuation c then
      if inRun then collapsePunctuationAux true cs
      else
        match cs with
        | [] => [c]
        | d :: _ =>
          if isPunctuation d then 46 :: collapsePunctuationAux true cs
          else c :: collapsePunctuationAux false cs
    else c :: collapsePunctuationAux false cs

/-- The third replacement of `cleanText`, from the start of the string. -/
def collapsePunctuation (s : Str) : Str := collapsePunctuationAux false s

/-- Model of `String.prototype.trim`. -/
def trim (s : Str) : Str :=
  ((s.dropWhile isWhiteSpace).reverse.dropWhile isWhiteSpace).reverse

/-- The function `ContentCleaner.cleanText(text)`. -/
def cleanText (text : Str) : Str :=
  trim (collapsePunctuation (removeSpecial (collapseWhitespace text)))

/-! ## `LanguageDetector` -/

/-- The lookup `languageMap[detected]` for the codes that `franc` returns (three-letter
ISO 639-3 codes and `"und"`); `none` is `undefined`. -/
def languageMap (detected : Str) : Option Str :=
  if detected = str "por" then some (str "pt")
  else if detected = str "eng" then some (str "en")
  else if detected = str "und" then some (str "pt")
  else none

/-- The operator `a || b` on strings: `a` when it is truthy (non-empty), else `b`. -/
def jsOr (a b : Str) : Str := if a = [] then b else a

/-- The function `LanguageDetector.detectLanguage(text)`.  The detector `franc` is an external collaborator;
`franc text = none` models a thrown exception. -/
def detectLanguage (franc : Str → Option Str) (text : Str) : Str :=
  match franc text with
  | some detected =>
    match languageMap detected with
    | some l => jsOr l (str "pt")
    | none => str "pt"
  | none => str "pt"

/-- The function `LanguageDetector.detectFromUrl(url)`. -/
def detectFromUrl (url : Str) : Str :=
  if includes url (str "/en/") || includes url (str "/english/") then str "en" else str "pt"

/-- The expression `LanguageDetector.detectLanguage(text) || LanguageDetector.detectFromUrl(url)`
of `processHTMLPage` and `processPDF`. -/
def recordLanguage (franc : Str → Option Str) (text url : Str) : Str :=
  jsOr (detectLanguage franc text) (detectFromUrl url)

/-! ## `PDFProcessor.isPDFUrl` -/

/-- Model of `String.prototype.toLowerCase` on the letters `A`-`Z`; other code units are left
unchanged (no code unit outside ASCII lower-cases to one of `.`, `p`, `d`, `f`). -/
def toLowerCase (s : Str) : Str :=
  s.map (fun c => if 65 ≤ c ∧ c ≤ 90 then c + 32 else c)

/-- The function `PDFProcessor.isPDFUrl(url)`. -/
def isPDFUrl (cfg : Config) (url : Str) : Bool :=
  let urlLower := toLowerCase url
  cfg.PDF_EXTENSIONS.any (fun ext => includes urlLower ext)

/-! ## External collaborators -/

/-- The two properties of a WHATWG `URL` object that the scraper reads. -/
structure UrlObj where
  href : Str
  hostname : Str
deriving DecidableEq, Repr

/-- What the headless browser gives for one navigation: `page.content()` and the result of
`page.$$eval("a[href]", ...)` (`none` when that call rejects). -/
structure PageLoad where
  content : Str
  links : Option (List Str)

/-- What the download and `pdf-parse` give for one PDF: the raw text, the page count, and the
name under which the file is stored (`generateFilename`). -/
structure PdfData where
  text : Str
  numpages : Nat
  filename : Str

/-- The external collaborators of the scraper.
* `URL input base` is `new URL(input, base)` (`new URL(input)` when `base = none`); `none` is a
  thrown `TypeError`.
* `franc` is the statistical language detector; `none` is a thrown exception.
* `goto url` is `newPage`, `goto` and `content` on `url`; `none` when one of them rejects.
* `mainContent html` is the `cheerio` part of `cleanHtmlContent`: the text of the selected
  main-content element (or of the body) after the unwanted elements are removed.
* `download url` is the HTTP download, the write to disk and `pdfParse`; `none` when one of
  them throws. -/
structure World where
  URL : Str → Option Str → Option UrlObj
  franc : Str → Option Str
  goto : Str → Option PageLoad
  mainContent : Str → Str
  download : Str → Option PdfData

/-- The function `ContentCleaner.cleanHtmlContent(html, url)`: the selected text, passed to `cleanText`. -/
def cleanHtmlContent (w : World) (html : Str) (_url : Str) : Str :=
  cleanText (w.mainContent html)

/-- The object returned by `PDFProcessor.downloadAndProcessPDF`. -/
inductive PdfResult where
  | ok (text : Str) (filename : Str) (pages : Nat)
  | failed
deriving DecidableEq, Repr

/-- The function `PDFProcessor.downloadAndProcessPDF(pdfUrl, baseUrl)`: every exception is caught and gives
`{ success: false }`. -/
def downloadAndProcessPDF (w : World) (pdfUrl baseUrl : Str) : PdfResult :=
  match w.URL pdfUrl (some baseUrl) with
  | none => PdfResult.failed
  | some absoluteUrl =>
    match w.download absoluteUrl.href with
    | none => PdfResult.failed
    | some pdfData => PdfResult.ok (cleanText pdfData.text) pdfData.filename pdfData.numpages

/-! ## `StandardBankScraper` -/

/-- One entry of `scrapedData`.  `null` and absent fields are `none`; the time stamp
`scraped_at` is left out. -/
structure Record where
  source_url : Str
  type : Str
  language : Str
  content : Str
  chunk_index : Option Nat
  total_chunks : Option Nat
  pdf_pages : Option Nat
  filename : Option Str
deriving DecidableEq, Repr

/-- The mutable fields of a `StandardBankScraper` instance that the crawl reads and writes. -/
structure StandardBankScraper where
  visitedUrls : List Str
  urlQueue : List Str
  scrapedData : List Record
deriving DecidableEq, Repr

/-- The state built by the constructor. -/
def StandardBankScraper.new : StandardBankScraper where
  visitedUrls := []
  urlQueue := []
  scrapedData := []

/-- Model of `Array.prototype.forEach((x, index) => ...)` for a callback that updates a state. -/
def forEachIdx {α σ : Type} (f : σ → α → Nat → σ) : List α → Nat → σ → σ
  | [], _, s => s
  | x :: xs, index, s => forEachIdx f xs (index + 1) (f s x index)

/-- The object pushed by the `forEach` callback of `processHTMLPage`. -/
def htmlRecord (url language : Str) (chunks : List Str) (chunk : Str) (index : Nat) : Record where
  source_url := url
  type := str "html"
  language := language
  content := chunk
  chunk_index := if chunks.length > 1 then some (index + 1) else none
  total_chunks := if chunks.length > 1 then some chunks.length else none
  pdf_pages := none
  filename := none

/-- The object pushed by the `forEach` callback of `processPDF`. -/
def pdfRecord (pdfUrl language : Str) (pages : Nat) (filename : Str) (chunks : List Str)
    (chunk : Str) (index : Nat) : Record where
  source_url := pdfUrl
  type := str "pdf"
  language := language
  content := chunk
  chunk_index := if chunks.length > 1 then some (index + 1) else none
  total_chunks := if chunks.length > 1 then some chunks.length else none
  pdf_pages := some pages
  filename := some filename

/-- The statement `chunks.forEach((chunk, index) => this.scrapedData.push({...}))`, for the
record constructor `mk chunk index`. -/
def pushRecords (mk : Str → Nat → Record) (chunks : List Str) (st : StandardBankScraper) :
    StandardBankScraper :=
  forEachIdx (fun s chunk index => { s with scrapedData := s.scrapedData ++ [mk chunk index] })
    chunks 0 st

/-- The body of the `links.forEach` callback of `addLinksToQueue` for one link. -/
def addLink (cfg : Config) (w : World) (currentUrl : Str) (st : StandardBankScraper)
    (link : Str) : StandardBankScraper :=
  match w.URL link (some currentUrl) with
  | none => st
  | some resolved =>
    let absoluteUrl := resolved.href
    match w.URL absoluteUrl none with
    | none => st
    | some urlObj =>
      if includes urlObj.hostname cfg.TARGET_DOMAIN && !st.visitedUrls.contains absoluteUrl &&
          !st.urlQueue.contains absoluteUrl then
        { st with urlQueue := st.urlQueue ++ [absoluteUrl] }
      else st

/-- The function `StandardBankScraper.addLinksToQueue(links, currentUrl)`. -/
def addLinksToQueue (cfg : Config) (w : World) (st : StandardBankScraper) (links : List Str)
    (currentUrl : Str) : StandardBankScraper :=
  links.foldl (addLink cfg w currentUrl) st

/-- The PDF-link pass at the end of `processHTMLPage`: every link that looks like a PDF and is
not visited is pushed on the queue. -/
def addPdfLinks (cfg : Config) (st : StandardBankScraper) (links : List Str) :
    StandardBankScraper :=
  let pdfLinks := links.filter (fun link => isPDFUrl cfg link)
  pdfLinks.foldl
    (fun s pdfLink =>
      if !s.visitedUrls.contains pdfLink then { s with urlQueue := s.urlQueue ++ [pdfLink] }
      else s)
    st

/-- The function `StandardBankScraper.processHTMLPage(url)`.  An exception leaves the state as it is at that
point (it is caught and logged by `processUrl`); the result is `none` only when `chunkText` does
not return. -/
def processHTMLPage (cfg : Config) (w : World) (st : StandardBankScraper) (url : Str) :
    Option StandardBankScraper :=
  match w.goto url with
  | none => some st
  | some page =>
    let text := cleanHtmlContent w page.content url
    let saved : Option StandardBankScraper :=
      if cfg.MIN_CONTENT_LENGTH ≤ text.length then
        let language := recordLanguage w.franc text url
        match chunkText cfg text cfg.CHUNK_SIZE with
        | none => none
        | some chunks => some (pushRecords (htmlRecord url language chunks) chunks st)
      else some st
    match saved with
    | none => none
    | some st1 =>
      match page.links with
      | none => some st1
      | some links => some (addPdfLinks cfg (addLinksToQueue cfg w st1 links url) links)

/-- The function `StandardBankScraper.processPDF(pdfUrl)`. -/
def processPDF (cfg : Config) (w : World) (st : StandardBankScraper) (pdfUrl : Str) :
    Option StandardBankScraper :=
  match downloadAndProcessPDF w pdfUrl cfg.BASE_URL with
  | PdfResult.failed => some st
  | PdfResult.ok text filename pages =>
    if cfg.MIN_CONTENT_LENGTH ≤ text.length then
      let language := recordLanguage w.franc text pdfUrl
      match chunkText cfg text cfg.CHUNK_SIZE with
      | none => none
      | some chunks =>
        some (pushRecords (pdfRecord pdfUrl language pages filename chunks) chunks st)
    else some st

/-- The part of `processUrl(url)` that runs synchronously inside the call, before the first
suspension: the URL is marked visited. -/
def markVisited (st : StandardBankScraper) (url : Str) : StandardBankScraper :=
  { st with visitedUrls := st.visitedUrls ++ [url] }

/-- The part of `processUrl(url)` that runs after the URL is marked visited: the PDF or the HTML
path; exceptions are caught and logged. -/
def processUrlBody (cfg : Config) (w : World) (st : StandardBankScraper) (url : Str) :
    Option StandardBankScraper :=
  if isPDFUrl cfg url then processPDF cfg w st url else processHTMLPage cfg w st url

/-- The function `StandardBankScraper.processUrl(url)` run to completion on its own. -/
def processUrl (cfg : Config) (w : World) (st : StandardBankScraper) (url : Str) :
    Option StandardBankScraper :=
  if st.visitedUrls.contains url then some st
  else processUrlBody cfg w (markVisited st url) url

/-- The inner loop `while (tasks.length < this.maxConcurrent && this.urlQueue.length > 0)` of
`scrape`, by recursion on the queue.  A URL that is not visited is dispatched: `processUrl`
marks it visited at once and its task joins `tasks`.  The result is the batch and the state
with the rest of the queue. -/
def batchLoop (maxConcurrent : Nat) :
    List Str → StandardBankScraper → List Str → List Str × StandardBankScraper
  | [], st, tasks => (tasks, { st with urlQueue := [] })
  | url :: queue, st, tasks =>
    if tasks.length < maxConcurrent then
      if !st.visitedUrls.contains url then
        batchLoop maxConcurrent queue (markVisited st url) (tasks ++ [url])
      else batchLoop maxConcurrent queue st tasks
    else (tasks, { st with urlQueue := url :: queue })

/-- The statement `await Promise.allSettled(tasks)`: the dispatched tasks run to completion, here
in the order of their dispatch. -/
def settle (cfg : Config) (w : World) : List Str → StandardBankScraper → Option StandardBankScraper
  | [], st => some st
  | url :: tasks, st =>
    match processUrlBody cfg w st url with
    | none => none
    | some st1 => settle cfg w tasks st1

/-- The crawl loop `while (this.urlQueue.length > 0 && this.scrapedData.length < MAX_PAGES)` of
`scrape`.  One unit of fuel is spent per evaluation of the loop condition; the result is the
final state and the list of batches dispatched, `none` when the fuel runs out or a task does not
return. -/
def crawlLoop (cfg : Config) (w : World) :
    Nat → StandardBankScraper → Option (StandardBankScraper × List (List Str))
  | 0, _ => none
  | fuel + 1, st =>
    if st.urlQueue.length > 0 ∧ st.scrapedData.length < cfg.MAX_PAGES then
      let (tasks, st1) := batchLoop cfg.MAX_CONCURRENT_PAGES st.urlQueue st []
      match settle cfg w tasks st1 with
      | none => none
      | some st2 =>
        match crawlLoop cfg w fuel st2 with
        | none => none
        | some (st3, batches) => some (st3, tasks :: batches)
    else some (st, [])

/-- The function `StandardBankScraper.scrape()` on a fresh instance, up to the call of `saveResults`: the seed
is pushed and the crawl loop runs. -/
def scrape (cfg : Config) (w : World) (fuel : Nat) :
    Option (StandardBankScraper × List (List Str)) :=
  let st := StandardBankScraper.new
  crawlLoop cfg w fuel { st with urlQueue := st.urlQueue ++ [cfg.BASE_URL] }

/-! ## A fragment of the WHATWG URL parser, for concrete runs -/

/-- The code units of a host name in the modelled fragment: `a`-`z`, `0`-`9`, `.` and `-`. -/
def isHostChar (c : Nat) : Bool :=
  (97 ≤ c && c ≤ 122) || (48 ≤ c && c ≤ 57) || c == 46 || c == 45

/-- The code units of a path in the modelled fragment: `/`, letters, digits, `_`, `-` and `.`,
which the parser leaves unchanged. -/
def isPathChar (c : Nat) : Bool :=
  c == 47 || isWordChar c || c == 45 || c == 46

/-- Parse of what follows the scheme: a non-empty host of `isHostChar` units, then nothing or a
path of `isPathChar` units starting with `/` in which no segment starts with a dot (so there
is no dot segment to resolve).  The serialisation adds the `/` of an empty path. -/
def parseAfterScheme (scheme rest : Str) : Option UrlObj :=
  let host := rest.takeWhile isHostChar
  let path := rest.dropWhile isHostChar
  if host = [] then none
  else if path = [] then some { href := scheme ++ host ++ [47], hostname := host }
  else if path.head? = some 47 && path.all isPathChar && !includes path (str "/.") then
    some { href := scheme ++ host ++ path, hostname := host }
  else none

/-- A fragment of `new URL(input, base)`: `input` is an absolute `http://` or `https://` URL in
lower case with a plain host and a plain path; the base is then not consulted.  Inputs outside
the fragment give `none`. -/
def simpleURL (input : Str) (_base : Option Str) : Option UrlObj :=
  if (str "https://").isPrefixOf input then
    parseAfterScheme (str "https://") (input.drop 8)
  else if (str "http://").isPrefixOf input then
    parseAfterScheme (str "http://") (input.drop 7)
  else none

/-! ## Concrete inputs for the worked runs -/

/-- A word of fifty code units, all equal to `c`. -/
def word50 (c : Nat) : Str := List.replicate 50 c

/-- A text of two words of fifty code units each. -/
def demoText : Str := word50 97 ++ 32 :: word50 98

/-- A world in which every page shows `demoText` and links to two pages of the target site, the
detector is undetermined and no PDF can be downloaded. -/
def demoWorld : World where
  URL := simpleURL
  franc := fun _ => some (str "und")
  goto := fun _ =>
    some { content := demoText,
           links := some [str "https://www.standardbank.co.mz/a",
                          str "https://www.standardbank.co.mz/b"] }
  mainContent := id
  download := fun _ => none

/-- The configuration of `src/config.js` with a page cap of one and one word per chunk. -/
def demoConfig : Config := { CONFIG with MAX_PAGES := 1, CHUNK_SIZE := 1 }

/-- The state after `processUrl` has run on the seed in `demoWorld`. -/
def demoAfterSeed : StandardBankScraper :=
  (processUrl demoConfig demoWorld StandardBankScraper.new demoConfig.BASE_URL).getD
    StandardBankScraper.new

/-! ## The selection of the main content in `cleanHtmlContent` -/

/-- The `cheerio` document after the removals at the start of `cleanHtmlContent`, seen through the
queries that the function makes: `dom selector` lists, in document order, the text of every
element that `$(selector)` matches.  So `$(selector).length` is `(dom selector).length` and
`$(selector).text()` is the concatenation of the list. -/
abbrev Dom := Str → List Str

/-- The array `contentSelectors` of `cleanHtmlContent`, in its order. -/
def contentSelectors : List Str :=
  [str "main", str "[role=" ++ 34 :: str "main" ++ 34 :: str "]", str ".main-content",
   str ".content", str ".page-content", str "article", str ".article-content"]

/-- Model of `$(selector).text()`: the combined text of the matched elements. -/
def selectionText (elements : List Str) : Str := elements.flatten

/-- The loop `for (const selector of contentSelectors)` with its `break`, on the selectors that
are left; the result is the value of `mainContent` after the loop (`""` when nothing matched). -/
def selectLoop (dom : Dom) : List Str → Str
  | [] => []
  | selector :: rest =>
    let element := dom selector
    if element.length > 0 then selectionText element else selectLoop dom rest

/-- The value of `mainContent` that `cleanHtmlContent` passes to `cleanText`: the result of the
loop, or the text of the body when that result is falsy (the empty string). -/
def selectMainContent (dom : Dom) : Str :=
  let mainContent := selectLoop dom contentSelectors
  if mainContent = [] then selectionText (dom (str "body")) else mainContent

/-- The function `ContentCleaner.cleanHtmlContent(html, url)` with the selection spelled out;
`load html` is the document after `load(html)` and the removals. -/
def cleanHtmlContentDom (load : Str → Dom) (html : Str) (_url : Str) : Str :=
  cleanText (selectMainContent (load html))

/-! ## The tasks of a batch and their interleaving -/

/-- One uninterrupted piece of a task: the code that runs between two suspensions and updates
the scraper (`none` when it does not return). -/
abbrev Segment := StandardBankScraper → Option StandardBankScraper

/-- The piece of `processHTMLPage` between `page.content()` and `page.$$eval`: the text is
cleaned, tested against `MIN_CONTENT_LENGTH`, chunked, and the records are pushed. -/
def saveHtmlRecords (cfg : Config) (w : World) (url : Str) (page : PageLoad) : Segment :=
  fun st =>
    let text := cleanHtmlContent w page.content url
    if cfg.MIN_CONTENT_LENGTH ≤ text.length then
      let language := recordLanguage w.franc text url
      match chunkText cfg text cfg.CHUNK_SIZE with
      | none => none
      | some chunks => some (pushRecords (htmlRecord url language chunks) chunks st)
    else some st

/-- The piece of `processHTMLPage` after `page.$$eval`: `addLinksToQueue` and the PDF-link
pass. -/
def queueLinks (cfg : Config) (w : World) (url : Str) (links : List Str) : Segment :=
  fun st => some (addPdfLinks cfg (addLinksToQueue cfg w st links url) links)

/-- The pieces of `processHTMLPage(url)`, in order: none when the navigation fails, only the
first when the link extraction fails. -/
def htmlSegments (cfg : Config) (w : World) (url : Str) : List Segment :=
  match w.goto url with
  | none => []
  | some page =>
    saveHtmlRecords cfg w url page ::
      (match page.links with
       | none => []
       | some links => [queueLinks cfg w url links])

/-- The pieces of the task `processUrl(url)` after the URL is marked visited: one piece for a
PDF (all of `processPDF` after the download), the pieces of `processHTMLPage` otherwise. -/
def taskSegments (cfg : Config) (w : World) (url : Str) : List Segment :=
  if isPDFUrl cfg url then [fun st => processPDF cfg w st url] else htmlSegments cfg w url

/-- Pieces run one after the other. -/
def runSegments : List Segment → StandardBankScraper → Option StandardBankScraper
  | [], st => some st
  | seg :: segs, st =>
    match seg st with
    | none => none
    | some st1 => runSegments segs st1

/-- The statement `await Promise.allSettled(tasks)` under an arbitrary completion order.
`pending` holds, for every task of the batch, the pieces it has still to run.  Each entry of the
schedule names the task that runs its next piece (an entry that names no task with a piece left
is skipped); when the schedule is used up, the pieces left run in the order of the tasks.  The
result is the state when every task has settled. -/
def runSchedule : List Nat → List (List Segment) → StandardBankScraper → Option StandardBankScraper
  | [], pending, st => runSegments pending.flatten st
  | c :: schedule, pending, st =>
    match pending[c]? with
    | some (seg :: segs) =>
      match seg st with
      | none => none
      | some st1 => runSchedule schedule (pending.set c segs) st1
    | _ => runSchedule schedule pending st

/-- The crawl loop of `scrape` under arbitrary completion orders: `schedules` gives the schedule
of each batch in turn (the empty schedule when the list is used up).  The result is the trace of
the run so far, one entry per batch with the state in which the batch was built and the URLs
dispatched in it, and the final state (`none` when the fuel runs out or a piece does not
return). -/
def crawlRun (cfg : Config) (w : World) :
    List (List Nat) → Nat → StandardBankScraper →
      List (StandardBankScraper × List Str) × Option StandardBankScraper
  | _, 0, _ => ([], none)
  | schedules, fuel + 1, st =>
    if st.urlQueue.length > 0 ∧ st.scrapedData.length < cfg.MAX_PAGES then
      let batch := batchLoop cfg.MAX_CONCURRENT_PAGES st.urlQueue st []
      match runSchedule (schedules.headD []) (batch.1.map (taskSegments cfg w)) batch.2 with
      | none => ([(st, batch.1)], none)
      | some st2 =>
        let rest := crawlRun cfg w schedules.tail fuel st2
        ((st, batch.1) :: rest.1, rest.2)
    else ([], some st)

/-- Proof helper: a piece that leaves `visitedUrls` as it is. -/
def KeepsVisited (seg : Segment) : Prop :=
  ∀ st st1, seg st = some st1 → st1.visitedUrls = st.visitedUrls

/-! ## Concrete inputs for the link handling and the selection -/

/-- A world like `demoWorld` in which every page has the given content and the given links. -/
def pageWorld (content : Str) (links : List Str) : World :=
  { demoWorld with goto := fun _ => some { content := content, links := some links } }

/-- A world like `demoWorld` in which every page shows the given links. -/
def linkWorld (links : List Str) : World := pageWorld demoText links

/-- A text of two words of thirty code units each: 61 code units, no word of 50. -/
def shortWordsText : Str := List.replicate 30 97 ++ 32 :: List.replicate 30 98

/-- The words of a text of `n` words, each the single letter `a`. -/
def letterWords (n : Nat) : List Str := List.replicate n [97]

/-- A fresh scraper whose queue holds the seed three times and one other page. -/
def dupQueueStart : StandardBankScraper :=
  { StandardBankScraper.new with
    urlQueue := [CONFIG.BASE_URL, CONFIG.BASE_URL, str "https://www.standardbank.co.mz/a",
                 CONFIG.BASE_URL] }

/-- A document in which `main` matches one element without text, `article` matches one element
with the text `Hello`, and the body reads `junkHello`. -/
def emptyMainDom : Dom := fun selector =>
  if selector = str "main" then [[]]
  else if selector = str "article" then [str "Hello"]
  else if selector = str "body" then [str "junkHello"]
  else []

/-! ## Lemmas on `split`, `join` and the chunk loop -/

theorem split_ne_nil (t : Str) : split t ≠ [] := by
  cases t with
  | nil => simp [split]
  | cons c cs =>
    unfold split
    split_ifs
    · simp
    · split <;> simp

theorem join_split (t : Str) : join (split t) = t := by
  induction t with
  | nil => simp [split, join]
  | cons c cs ih =>
    unfold split
    split_ifs with h
    · have := split_ne_nil cs
      cases hs : split cs with
      | nil => exact absurd hs this
      | cons w ws => 
        rw [hs] at ih
        simp [join, ih, h]
    · cases hs : split cs with
      | nil => exact absurd hs (split_ne_nil cs)
      | cons w ws =>
        rw [hs] at ih
        cases ws with
        | nil => simp [join] at ih ⊢; exact ih
        | cons w2 ws2 => simp [join] at ih ⊢; exact ih

theorem split_no_space (t : Str) : ∀ w ∈ split t, 32 ∉ w := by
  induction t with
  | nil => simp [split]
  | cons c cs ih =>
    unfold split
    split_ifs with h
    · intro w hw
      simp at hw
      rcases hw with rfl | hw
      · simp
      · exact ih w hw
    · cases hs : split cs with
      | nil => exact absurd hs (split_ne_nil cs)
      | cons w ws =>
        rw [hs] at ih
        intro v hv
        simp at hv
        rcases hv with rfl | hv
        · have := ih w (by simp)
          simp [this]
          exact fun h' => h h'.symm
        · exact ih v (by simp [hv])

theorem split_word (w : Str) (hw : 32 ∉ w) : split w = [w] := by
  induction w with
  | nil => simp [split]
  | cons c cs ih =>
    simp at hw
    unfold split
    rw [if_neg (fun h => hw.1 h.symm), ih hw.2]

theorem split_word_append (w rest : Str) (hw : 32 ∉ w) :
    split (w ++ 32 :: rest) = w :: split rest := by
  induction w with
  | nil => simp [split]
  | cons c cs ih =>
    simp at hw
    simp only [List.cons_append]
    conv_lhs => unfold split
    rw [if_neg (fun h => hw.1 h.symm), ih hw.2]

theorem split_join (ws : List Str) (hne : ws ≠ []) (hws : ∀ w ∈ ws, 32 ∉ w) :
    split (join ws) = ws := by
  induction ws with
  | nil => exact absurd rfl hne
  | cons w ws ih =>
    cases ws with
    | nil => simpa [join] using split_word w (hws w (by simp))
    | cons w2 ws2 =>
      have h1 : join (w :: w2 :: ws2) = w ++ 32 :: join (w2 :: ws2) := by simp [join]
      rw [h1, split_word_append w _ (hws w (by simp)), ih (by simp)]
      intro v hv
      exact hws v (by simp at hv ⊢; right; exact hv)

theorem join_cons_of_ne_nil (w : Str) (ws : List Str) (hne : ws ≠ []) :
    join (w :: ws) = w ++ 32 :: join ws := by
  cases ws with
  | nil => exact absurd rfl hne
  | cons w2 ws2 => rfl

theorem join_append (a b : List Str) (ha : a ≠ []) (hb : b ≠ []) :
    join (a ++ b) = join a ++ 32 :: join b := by
  induction a with
  | nil => exact absurd rfl ha
  | cons w ws ih =>
    cases ws with
    | nil => simp [join, join_cons_of_ne_nil _ _ hb]
    | cons w2 ws2 =>
      have h := ih (by simp)
      rw [List.cons_append, join_cons_of_ne_nil w _ (by simp), h,
        join_cons_of_ne_nil w (w2 :: ws2) (by simp)]
      simp

theorem join_length (ws : List Str) :
    (join ws).length = (ws.map List.length).sum + (ws.length - 1) := by
  induction ws with
  | nil => simp [join]
  | cons w ws ih =>
    cases ws with
    | nil => simp [join]
    | cons w2 ws2 =>
      rw [join_cons_of_ne_nil _ _ (by simp)]
      simp only [List.length_append, List.length_cons, ih, List.map_cons, List.sum_cons]
      omega

theorem join_length_le_of_sublist {a b : List Str} (h : a.Sublist b) :
    (join a).length ≤ (join b).length := by
  rw [join_length, join_length]
  have h1 : (a.map List.length).sum ≤ (b.map List.length).sum :=
    List.Sublist.sum_le_sum (h.map _) (by simp)
  have h2 := h.length_le
  omega

theorem slice_sublist {α : Type} (xs : List α) (i j : Nat) : (slice xs i j).Sublist xs :=
  (List.take_sublist _ _).trans (List.drop_sublist _ _)

theorem slice_eq_take_drop {α : Type} (xs : List α) (i k : Nat) :
    slice xs i (i + k) = (xs.drop i).take k := by
  simp [slice]

theorem chunkLoop_eq (cfg : Config) (words : List Str) (k : Nat) (hk : 1 ≤ k) :
    ∀ (fuel i : Nat) (acc : List Str), words.length ≤ fuel + i →
      chunkLoop cfg words k (fuel + 1) i acc =
        some (acc ++ ((groupsFrom words k (fuel + 1) i).map join).filter
          (fun c => decide (cfg.MIN_CONTENT_LENGTH ≤ c.length))) := by
  intro fuel
  induction fuel with
  | zero =>
    intro i acc h
    have hi : ¬ i < words.length := by omega
    simp [chunkLoop, groupsFrom, hi]
  | succ fuel ih =>
    intro i acc h
    rw [chunkLoop, groupsFrom]
    by_cases hi : i < words.length
    · simp only [if_pos hi]
      by_cases hm : cfg.MIN_CONTENT_LENGTH ≤ (join (slice words i (i + k))).length
      · rw [if_pos hm, ih _ _ (by omega)]
        simp [List.filter_cons, hm]
      · rw [if_neg hm, ih _ _ (by omega)]
        simp [List.filter_cons, hm]
    · simp [if_neg hi]

theorem groupsFrom_join (words : List Str) (k : Nat) (hk : 1 ≤ k) :
    ∀ (fuel i : Nat), words.length ≤ fuel + i →
      (groupsFrom words k (fuel + 1) i).flatten = words.drop i := by
  intro fuel
  induction fuel with
  | zero =>
    intro i h
    have hi : ¬ i < words.length := by omega
    simp only [groupsFrom, if_neg hi, List.flatten_nil]
    rw [List.drop_of_length_le (by omega)]
  | succ fuel ih =>
    intro i h
    rw [groupsFrom]
    by_cases hi : i < words.length
    · rw [if_pos hi, List.flatten_cons, ih _ (by omega), slice_eq_take_drop, ← List.drop_drop]
      exact List.take_append_drop _ _
    · rw [if_neg hi, List.drop_of_length_le (by omega)]
      rfl

theorem groupsFrom_mem (words : List Str) (k : Nat) :
    ∀ (fuel i : Nat) (g : List Str), g ∈ groupsFrom words k fuel i →
      ∃ m, i + m * k < words.length ∧ g = slice words (i + m * k) (i + m * k + k) := by
  intro fuel
  induction fuel with
  | zero => intro i g h; simp [groupsFrom] at h
  | succ fuel ih =>
    intro i g h
    simp only [groupsFrom] at h
    by_cases hi : i < words.length
    · rw [if_pos hi] at h
      rcases List.mem_cons.1 h with rfl | h
      · exact ⟨0, by simpa using hi, by simp⟩
      · obtain ⟨m, hm, hg⟩ := ih _ _ h
        refine ⟨m + 1, ?_, ?_⟩
        · have : i + (m + 1) * k = i + k + m * k := by ring
          rw [this]; exact hm
        · have : i + (m + 1) * k = i + k + m * k := by ring
          rw [this]; exact hg
    · rw [if_neg hi] at h
      simp at h

theorem slice_length {α : Type} (xs : List α) (i k : Nat) :
    (slice xs i (i + k)).length = min k (xs.length - i) := by
  simp [slice]

theorem groupsFrom_dropLast (words : List Str) (k : Nat) :
    ∀ (fuel i : Nat), ∀ g ∈ (groupsFrom words k fuel i).dropLast, g.length = k := by
  intro fuel
  induction fuel with
  | zero => intro i g h; simp [groupsFrom] at h
  | succ fuel ih =>
    intro i g h
    simp only [groupsFrom] at h
    by_cases hi : i < words.length
    · rw [if_pos hi] at h
      cases hrest : groupsFrom words k fuel (i + k) with
      | nil => rw [hrest] at h; simp at h
      | cons g2 gs =>
        rw [hrest, List.dropLast_cons₂] at h
        rcases List.mem_cons.1 h with rfl | h
        · -- the next group exists, so `i + k < words.length`
          have hmem : g2 ∈ groupsFrom words k fuel (i + k) := by simp [hrest]
          obtain ⟨m, hm, -⟩ := groupsFrom_mem words k fuel (i + k) g2 hmem
          rw [slice_length]
          omega
        · rw [← hrest] at h
          exact ih _ _ h
    · rw [if_neg hi] at h
      simp at h

theorem sublist_dropLast {α : Type} {a b : List α} (h : a.Sublist b) :
    a.dropLast.Sublist b.dropLast := by
  induction h with
  | slnil => simp
  | @cons l1 l2 x h ih =>
    cases l2 with
    | nil => 
      have := List.sublist_nil.1 h
      subst this; simp
    | cons y ys => 
      rw [List.dropLast_cons₂]
      exact ih.cons _
  | @cons₂ l1 l2 x h ih =>
    cases l1 with
    | nil => simp
    | cons z zs =>
      cases l2 with
      | nil => simp at h
      | cons y ys =>
        rw [List.dropLast_cons₂, List.dropLast_cons₂]
        exact ih.cons₂ _

theorem join_map_join (G : List (List Str)) (hG : ∀ g ∈ G, g ≠ []) :
    join (G.map join) = join G.flatten := by
  induction G with
  | nil => rfl
  | cons g G ih =>
    cases G with
    | nil => simp [join]
    | cons g2 G2 =>
      have ih2 := ih (fun x hx => hG x (List.mem_cons_of_mem _ hx))
      have hg : g ≠ [] := hG g (by simp)
      have hg2 : g2 ≠ [] := hG g2 (by simp)
      rw [List.map_cons, join_cons_of_ne_nil _ _ (by simp), ih2,
        List.flatten_cons (l := g), join_append g _ hg (by simp [hg2])]

theorem groupsFrom_mem_props (words : List Str) (k : Nat) (hk : 1 ≤ k) (fuel i : Nat)
    (g : List Str) (hg : g ∈ groupsFrom words k fuel i) :
    g ≠ [] ∧ g.length ≤ k ∧ g.Sublist words := by
  obtain ⟨m, hm, rfl⟩ := groupsFrom_mem words k fuel i g hg
  refine ⟨?_, ?_, slice_sublist _ _ _⟩
  · intro h
    have := congrArg List.length h
    rw [slice_length] at this
    simp at this
    omega
  · rw [slice_length]; omega

theorem split_join_group (text : Str) (k : Nat) (hk : 1 ≤ k) (fuel i : Nat) (g : List Str)
    (hg : g ∈ groupsFrom (split text) k fuel i) : split (join g) = g := by
  obtain ⟨hne, -, hsub⟩ := groupsFrom_mem_props _ k hk fuel i g hg
  exact split_join g hne (fun w hw => split_no_space text w (hsub.subset hw))

/-- The value of `chunkText` in terms of the unfiltered groups. -/
theorem chunkText_eq (cfg : Config) (text : Str) (k : Nat) (hk : 1 ≤ k) :
    chunkText cfg text k =
      some (if ((groupsFrom (split text) k ((split text).length + 1) 0).map join).filter
              (fun c => decide (cfg.MIN_CONTENT_LENGTH ≤ c.length)) = [] then [text]
            else ((groupsFrom (split text) k ((split text).length + 1) 0).map join).filter
              (fun c => decide (cfg.MIN_CONTENT_LENGTH ≤ c.length))) := by
  unfold chunkText
  simp only [chunkLoop_eq cfg (split text) k hk (split text).length 0 [] (Nat.le_refl _),
    List.nil_append]
  congr 1
  by_cases h : ((groupsFrom (split text) k ((split text).length + 1) 0).map join).filter
      (fun c => decide (cfg.MIN_CONTENT_LENGTH ≤ c.length)) = []
  · rw [if_pos h, h]; rfl
  · rw [if_neg h, if_pos (List.length_pos.2 h)]

theorem groupsFrom_mem_of_lt (words : List Str) (k : Nat) (hk : 1 ≤ k) :
    ∀ (m fuel i : Nat), words.length ≤ fuel + i → i + m * k < words.length →
      slice words (i + m * k) (i + m * k + k) ∈ groupsFrom words k (fuel + 1) i := by
  intro m
  induction m with
  | zero =>
    intro fuel i _ hlt
    have hi : i < words.length := by simpa using hlt
    rw [groupsFrom, if_pos hi]
    simp
  | succ m ih =>
    intro fuel i hfuel hlt
    have hstep : i + (m + 1) * k = i + k + m * k := by ring
    have hi : i < words.length := by
      have : i ≤ i + (m + 1) * k := Nat.le_add_right _ _
      omega
    rw [groupsFrom, if_pos hi]
    obtain ⟨fuel, rfl⟩ : ∃ f, fuel = f + 1 := ⟨fuel - 1, by omega⟩
    rw [hstep] at hlt ⊢
    exact List.mem_cons_of_mem _ (ih fuel (i + k) (by omega) hlt)

/-! ## Records -/

theorem forEachIdx_push (mk : Str → Nat → Record) :
    ∀ (chunks : List Str) (i : Nat) (st : StandardBankScraper),
      forEachIdx
          (fun s chunk index => { s with scrapedData := s.scrapedData ++ [mk chunk index] })
          chunks i st =
        { st with scrapedData :=
            st.scrapedData ++ List.zipWith mk chunks (List.range' i chunks.length) } := by
  intro chunks
  induction chunks with
  | nil => intro i st; simp [forEachIdx]
  | cons c cs ih =>
    intro i st
    rw [forEachIdx, ih]
    simp [List.range'_succ]

theorem pushRecords_eq (mk : Str → Nat → Record) (chunks : List Str)
    (st : StandardBankScraper) :
    pushRecords mk chunks st =
      { st with scrapedData :=
          st.scrapedData ++ List.zipWith mk chunks (List.range' 0 chunks.length) } :=
  forEachIdx_push mk chunks 0 st

theorem mem_zipWith_range' (mk : Str → Nat → Record) :
    ∀ (chunks : List Str) (i : Nat) (r : Record),
      r ∈ List.zipWith mk chunks (List.range' i chunks.length) →
      ∃ chunk index, chunk ∈ chunks ∧ i ≤ index ∧ index < i + chunks.length ∧
        r = mk chunk index := by
  intro chunks
  induction chunks with
  | nil => intro i r h; simp at h
  | cons c cs ih =>
    intro i r h
    simp only [List.length_cons, List.range'_succ, List.zipWith_cons_cons, List.mem_cons] at h
    rcases h with rfl | h
    · exact ⟨c, i, by simp, Nat.le_refl _, by simp, rfl⟩
    · obtain ⟨chunk, index, h1, h2, h3, h4⟩ := ih (i + 1) r h
      exact ⟨chunk, index, by simp [h1], by omega, by simp only [List.length_cons]; omega, h4⟩

/-- The pairing of `chunk_index` and `total_chunks`, for every list of chunks and a record
constructor that fills the two fields as the callbacks of `processHTMLPage` and `processPDF`
do. -/
theorem pushRecords_pairing (mk : Str → Nat → Record) (chunks : List Str)
    (hidx : ∀ chunk index,
      (mk chunk index).chunk_index = if chunks.length > 1 then some (index + 1) else none)
    (htot : ∀ chunk index,
      (mk chunk index).total_chunks = if chunks.length > 1 then some chunks.length else none)
    (r : Record) (hr : r ∈ List.zipWith mk chunks (List.range' 0 chunks.length)) :
    ((r.chunk_index = none ∧ r.total_chunks = none) ∨
      ∃ i t, r.chunk_index = some i ∧ r.total_chunks = some t ∧ 1 ≤ i ∧ i ≤ t ∧ 2 ≤ t) ∧
    ((r.chunk_index = none ∧ r.total_chunks = none) ↔ chunks.length = 1) := by
  obtain ⟨chunk, index, hmem, -, hlt, rfl⟩ := mem_zipWith_range' mk chunks 0 r hr
  have hpos : 0 < chunks.length := List.length_pos_of_mem hmem
  rw [hidx, htot]
  by_cases h : chunks.length > 1
  · rw [if_pos h, if_pos h]
    refine ⟨Or.inr ⟨index + 1, chunks.length, rfl, rfl, by omega, by omega, by omega⟩, ?_⟩
    constructor
    · rintro ⟨h1, -⟩; cases h1
    · intro h1; omega
  · rw [if_neg h, if_neg h]
    refine ⟨Or.inl ⟨rfl, rfl⟩, ?_⟩
    constructor
    · intro _; omega
    · intro _; exact ⟨rfl, rfl⟩

theorem addLink_scrapedData (cfg : Config) (w : World) (cur : Str) (st : StandardBankScraper)
    (link : Str) : (addLink cfg w cur st link).scrapedData = st.scrapedData := by
  unfold addLink
  cases w.URL link (some cur) with
  | none => rfl
  | some resolved =>
    dsimp only
    cases w.URL resolved.href none with
    | none => rfl
    | some urlObj =>
      dsimp only
      split <;> rfl

theorem addLinksToQueue_scrapedData (cfg : Config) (w : World) (links : List Str) (cur : Str) :
    ∀ st : StandardBankScraper,
      (addLinksToQueue cfg w st links cur).scrapedData = st.scrapedData := by
  unfold addLinksToQueue
  induction links with
  | nil => intro st; rfl
  | cons l ls ih =>
    intro st
    rw [List.foldl_cons, ih, addLink_scrapedData]

theorem addPdfLinks_scrapedData (cfg : Config) (links : List Str) :
    ∀ st : StandardBankScraper, (addPdfLinks cfg st links).scrapedData = st.scrapedData := by
  unfold addPdfLinks
  dsimp only
  induction links.filter (fun link => isPDFUrl cfg link) with
  | nil => intro st; rfl
  | cons l ls ih =>
    intro st
    rw [List.foldl_cons, ih]
    split <;> rfl

/-- What `processHTMLPage` appends to `scrapedData`: nothing, or the records of a chunk list. -/
theorem processHTMLPage_scrapedData (cfg : Config) (w : World) (st st1 : StandardBankScraper)
    (url : Str) (h : processHTMLPage cfg w st url = some st1) :
    st1.scrapedData = st.scrapedData ∨
      ∃ language chunks, st1.scrapedData = st.scrapedData ++
        List.zipWith (htmlRecord url language chunks) chunks (List.range' 0 chunks.length) := by
  unfold processHTMLPage at h
  cases hg : w.goto url with
  | none =>
    rw [hg] at h
    simp only [Option.some.injEq] at h
    subst h; exact Or.inl rfl
  | some page =>
    rw [hg] at h
    dsimp only at h
    by_cases hlen : cfg.MIN_CONTENT_LENGTH ≤ (cleanHtmlContent w page.content url).length
    · rw [if_pos hlen] at h
      cases hc : chunkText cfg (cleanHtmlContent w page.content url) cfg.CHUNK_SIZE with
      | none => rw [hc] at h; simp at h
      | some chunks =>
        rw [hc] at h
        dsimp only at h
        refine Or.inr
          ⟨recordLanguage w.franc (cleanHtmlContent w page.content url) url, chunks, ?_⟩
        cases hl : page.links with
        | none =>
          rw [hl] at h
          simp only [Option.some.injEq] at h
          subst h
          rw [pushRecords_eq]
        | some links =>
          rw [hl] at h
          simp only [Option.some.injEq] at h
          subst h
          rw [addPdfLinks_scrapedData, addLinksToQueue_scrapedData, pushRecords_eq]
    · rw [if_neg hlen] at h
      dsimp only at h
      refine Or.inl ?_
      cases hl : page.links with
      | none =>
        rw [hl] at h
        simp only [Option.some.injEq] at h
        subst h; rfl
      | some links =>
        rw [hl] at h
        simp only [Option.some.injEq] at h
        subst h
        rw [addPdfLinks_scrapedData, addLinksToQueue_scrapedData]

/-- What `processPDF` appends to `scrapedData`: nothing, or the records of a chunk list. -/
theorem processPDF_scrapedData (cfg : Config) (w : World) (st st1 : StandardBankScraper)
    (pdfUrl : Str) (h : processPDF cfg w st pdfUrl = some st1) :
    st1.scrapedData = st.scrapedData ∨
      ∃ language pages filename chunks, st1.scrapedData = st.scrapedData ++
        List.zipWith (pdfRecord pdfUrl language pages filename chunks) chunks
          (List.range' 0 chunks.length) := by
  unfold processPDF at h
  cases hd : downloadAndProcessPDF w pdfUrl cfg.BASE_URL with
  | failed =>
    rw [hd] at h
    simp only [Option.some.injEq] at h
    subst h; exact Or.inl rfl
  | ok text filename pages =>
    rw [hd] at h
    dsimp only at h
    by_cases hlen : cfg.MIN_CONTENT_LENGTH ≤ text.length
    · rw [if_pos hlen] at h
      cases hc : chunkText cfg text cfg.CHUNK_SIZE with
      | none => rw [hc] at h; simp at h
      | some chunks =>
        rw [hc] at h
        simp only [Option.some.injEq] at h
        subst h
        exact Or.inr ⟨recordLanguage w.franc text pdfUrl, pages, filename, chunks,
          by rw [pushRecords_eq]⟩
    · rw [if_neg hlen] at h
      simp only [Option.some.injEq] at h
      subst h; exact Or.inl rfl

/-! ## `addLinksToQueue` -/

/-- The callback of `addLinksToQueue` on an in-scope absolute URL: it is pushed unless it is
visited or queued. -/
theorem addLink_absolute (cfg : Config) (w : World) (cur : Str) (st : StandardBankScraper)
    (u : Str) (o : UrlObj) (habs : ∀ base, w.URL u base = some o) (hhref : o.href = u)
    (hscope : includes o.hostname cfg.TARGET_DOMAIN = true) :
    addLink cfg w cur st u =
      if u ∈ st.visitedUrls ∨ u ∈ st.urlQueue then st
      else { st with urlQueue := st.urlQueue ++ [u] } := by
  unfold addLink
  rw [habs]
  dsimp only
  rw [hhref, habs]
  dsimp only
  rw [hscope]
  by_cases h1 : u ∈ st.visitedUrls
  · simp [h1]
  · by_cases h2 : u ∈ st.urlQueue
    · simp [h2]
    · simp [h1, h2]

/-- The callback of `addLinksToQueue` on an in-scope absolute URL `u` that the parser serialises
as `o.href` (possibly different from `u`): the serialised string is what is tested against
`visitedUrls` and `urlQueue`, and what is pushed. -/
theorem addLink_resolved (cfg : Config) (w : World) (cur : Str) (st : StandardBankScraper)
    (u : Str) (o : UrlObj) (habs : ∀ base, w.URL u base = some o)
    (hre : w.URL o.href none = some o)
    (hscope : includes o.hostname cfg.TARGET_DOMAIN = true) :
    addLink cfg w cur st u =
      if o.href ∈ st.visitedUrls ∨ o.href ∈ st.urlQueue then st
      else { st with urlQueue := st.urlQueue ++ [o.href] } := by
  unfold addLink
  rw [habs]
  dsimp only
  rw [hre]
  dsimp only
  rw [hscope]
  by_cases h1 : o.href ∈ st.visitedUrls
  · simp [h1]
  · by_cases h2 : o.href ∈ st.urlQueue
    · simp [h2]
    · simp [h1, h2]

/-! ## The crawl loop -/

theorem crawlLoop_cap_reached (cfg : Config) (w : World) (st : StandardBankScraper) (fuel : Nat)
    (h : cfg.MAX_PAGES ≤ st.scrapedData.length) :
    crawlLoop cfg w (fuel + 1) st = some (st, []) := by
  rw [crawlLoop, if_neg]
  omega

/-! ## The number of chunks and their lengths -/

theorem groupsFrom_length (words : List Str) (k : Nat) (hk : 1 ≤ k) :
    ∀ (fuel i : Nat), words.length ≤ fuel + i →
      (groupsFrom words k (fuel + 1) i).length = (words.length - i + k - 1) / k := by
  intro fuel
  induction fuel with
  | zero =>
    intro i h
    have hi : ¬ i < words.length := by omega
    have h0 : words.length - i + k - 1 = k - 1 := by omega
    rw [groupsFrom, if_neg hi, h0, List.length_nil]
    exact (Nat.div_eq_of_lt (by omega)).symm
  | succ fuel ih =>
    intro i h
    rw [groupsFrom]
    by_cases hi : i < words.length
    · rw [if_pos hi, List.length_cons, ih _ (by omega)]
      by_cases hge : k ≤ words.length - i
      · have e : words.length - i + k - 1 = (words.length - (i + k) + k - 1) + k := by omega
        rw [e, Nat.add_div_right _ (by omega)]
      · have e1 : words.length - (i + k) + k - 1 = k - 1 := by omega
        rw [e1, Nat.div_eq_of_lt (by omega)]
        have e2 : words.length - i + k - 1 = (words.length - i - 1) + k := by omega
        rw [e2, Nat.add_div_right _ (by omega), Nat.div_eq_of_lt (by omega)]
    · have h0 : words.length - i + k - 1 = k - 1 := by omega
      rw [if_neg hi, h0, List.length_nil]
      exact (Nat.div_eq_of_lt (by omega)).symm

/-- When no word group is dropped, `chunkText` returns the joined groups. -/
theorem chunkText_of_all_kept (cfg : Config) (text : Str) (k : Nat) (hk : 1 ≤ k)
    (hkeep : ∀ i, i * k < (split text).length →
      cfg.MIN_CONTENT_LENGTH ≤ (join (slice (split text) (i * k) (i * k + k))).length) :
    chunkText cfg text k =
      some ((groupsFrom (split text) k ((split text).length + 1) 0).map join) := by
  have hfilter : ((groupsFrom (split text) k ((split text).length + 1) 0).map join).filter
      (fun c => decide (cfg.MIN_CONTENT_LENGTH ≤ c.length)) =
      (groupsFrom (split text) k ((split text).length + 1) 0).map join := by
    rw [List.filter_eq_self]
    intro c hc
    obtain ⟨g, hg, rfl⟩ := List.mem_map.1 hc
    obtain ⟨m, hm, rfl⟩ := groupsFrom_mem _ _ _ _ g hg
    simp only [Nat.zero_add] at hm ⊢
    simpa using hkeep m hm
  have hlen := groupsFrom_length (split text) k hk (split text).length 0 (Nat.le_refl _)
  have hpos : 0 < (split text).length := List.length_pos.2 (split_ne_nil text)
  have hne : (groupsFrom (split text) k ((split text).length + 1) 0).map join ≠ [] := by
    intro h
    have h0 := congrArg List.length h
    rw [List.length_map, hlen, List.length_nil] at h0
    have : k ≤ (split text).length - 0 + k - 1 := by omega
    have := Nat.div_pos this (by omega)
    omega
  rw [chunkText_eq cfg text k hk, hfilter, if_neg hne]

/-- The number of chunks when no word group is dropped: `⌈n / k⌉` for `n` words. -/
theorem chunkText_length_of_all_kept (cfg : Config) (text : Str) (k : Nat) (hk : 1 ≤ k)
    (hkeep : ∀ i, i * k < (split text).length →
      cfg.MIN_CONTENT_LENGTH ≤ (join (slice (split text) (i * k) (i * k + k))).length) :
    ∃ chunks, chunkText cfg text k = some chunks ∧
      chunks.length = ((split text).length + k - 1) / k := by
  refine ⟨_, chunkText_of_all_kept cfg text k hk hkeep, ?_⟩
  rw [List.length_map, groupsFrom_length _ k hk _ 0 (Nat.le_refl _), Nat.sub_zero]

theorem length_le_join_length (ws : List Str) (hws : ∀ w ∈ ws, w ≠ []) :
    ws.length ≤ (join ws).length := by
  rw [join_length]
  have : ws.length ≤ (ws.map List.length).sum := by
    induction ws with
    | nil => simp
    | cons w ws ih =>
      have h1 : 0 < w.length := List.length_pos.2 (hws w (by simp))
      have h2 := ih (fun v hv => hws v (List.mem_cons_of_mem _ hv))
      simp only [List.length_cons, List.map_cons, List.sum_cons]
      omega
  omega

/-- Every chunk returned for a text of at least `MIN_CONTENT_LENGTH` code units has at least
that length, the fallback included. -/
theorem chunkText_min_length (cfg : Config) (text : Str) (k : Nat) (hk : 1 ≤ k)
    (hlen : cfg.MIN_CONTENT_LENGTH ≤ text.length) :
    ∃ chunks, chunkText cfg text k = some chunks ∧
      ∀ c ∈ chunks, cfg.MIN_CONTENT_LENGTH ≤ c.length := by
  rw [chunkText_eq cfg text k hk]
  refine ⟨_, rfl, ?_⟩
  intro c hc
  split_ifs at hc with h
  · rw [List.mem_singleton] at hc
    rw [hc]; exact hlen
  · simpa using (List.mem_filter.1 hc).2

/-! ## Tasks as sequences of pieces -/

theorem processHTMLPage_eq_runSegments (cfg : Config) (w : World) (st : StandardBankScraper)
    (url : Str) : processHTMLPage cfg w st url = runSegments (htmlSegments cfg w url) st := by
  unfold processHTMLPage htmlSegments
  cases w.goto url with
  | none => rfl
  | some page =>
    dsimp only
    rw [runSegments]
    unfold saveHtmlRecords
    dsimp only
    by_cases hlen : cfg.MIN_CONTENT_LENGTH ≤ (cleanHtmlContent w page.content url).length
    · rw [if_pos hlen]
      cases chunkText cfg (cleanHtmlContent w page.content url) cfg.CHUNK_SIZE with
      | none => rfl
      | some chunks =>
        dsimp only
        cases page.links with
        | none => rfl
        | some links => rfl
    · rw [if_neg hlen]
      dsimp only
      cases page.links with
      | none => rfl
      | some links => rfl

theorem processUrlBody_eq_runSegments (cfg : Config) (w : World) (st : StandardBankScraper)
    (url : Str) : processUrlBody cfg w st url = runSegments (taskSegments cfg w url) st := by
  unfold processUrlBody taskSegments
  by_cases h : isPDFUrl cfg url = true
  · rw [if_pos h, if_pos h, runSegments]
    cases processPDF cfg w st url with
    | none => rfl
    | some st1 => rfl
  · rw [if_neg h, if_neg h, processHTMLPage_eq_runSegments]

/-- The records that `processHTMLPage` appends for a page whose cleaned text is long enough. -/
theorem processHTMLPage_records (cfg : Config) (w : World) (st : StandardBankScraper)
    (url : Str) (page : PageLoad) (chunks : List Str) (hgoto : w.goto url = some page)
    (hlen : cfg.MIN_CONTENT_LENGTH ≤ (cleanHtmlContent w page.content url).length)
    (hchunks : chunkText cfg (cleanHtmlContent w page.content url) cfg.CHUNK_SIZE = some chunks) :
    ∃ st1, processHTMLPage cfg w st url = some st1 ∧
      st1.scrapedData = st.scrapedData ++
        List.zipWith
          (htmlRecord url (recordLanguage w.franc (cleanHtmlContent w page.content url) url)
            chunks)
          chunks (List.range' 0 chunks.length) := by
  unfold processHTMLPage
  rw [hgoto]
  dsimp only
  rw [if_pos hlen, hchunks]
  dsimp only
  cases page.links with
  | none => exact ⟨_, rfl, by rw [pushRecords_eq]⟩
  | some links =>
    exact ⟨_, rfl, by rw [addPdfLinks_scrapedData, addLinksToQueue_scrapedData, pushRecords_eq]⟩

theorem getElem?_zipWith_range' (mk : Str → Nat → Record) :
    ∀ (chunks : List Str) (i j : Nat),
      (List.zipWith mk chunks (List.range' i chunks.length))[j]? =
        chunks[j]?.map (fun c => mk c (i + j)) := by
  intro chunks
  induction chunks with
  | nil => intro i j; simp
  | cons c cs ih =>
    intro i j
    cases j with
    | zero => simp [List.range'_succ]
    | succ j =>
      simp only [List.length_cons, List.range'_succ, List.zipWith_cons_cons,
        List.getElem?_cons_succ, ih]
      congr 1
      funext x
      congr 1
      omega

/-! ## A text of one-letter words is left unchanged by `cleanText` -/

theorem join_letterWords_succ (n : Nat) :
    join (letterWords (n + 2)) = 97 :: 32 :: join (letterWords (n + 1)) := by
  show join ([97] :: List.replicate (n + 1) [97]) = _
  rw [join_cons_of_ne_nil _ _ (by simp [List.replicate_succ])]
  rfl

theorem join_letterWords_shape (n : Nat) :
    (∃ rest, join (letterWords (n + 1)) = 97 :: rest) ∧
    (∃ init, join (letterWords (n + 1)) = init ++ [97]) ∧
    (∀ c ∈ join (letterWords (n + 1)), c = 97 ∨ c = 32) := by
  induction n with
  | zero => exact ⟨⟨[], rfl⟩, ⟨[], rfl⟩, by decide⟩
  | succ n ih =>
    obtain ⟨-, ⟨init, hinit⟩, hall⟩ := ih
    rw [join_letterWords_succ]
    refine ⟨⟨_, rfl⟩, ⟨97 :: 32 :: init, by rw [hinit]; rfl⟩, ?_⟩
    intro c hc
    rcases List.mem_cons.1 hc with rfl | hc
    · exact Or.inl rfl
    · rcases List.mem_cons.1 hc with rfl | hc
      · exact Or.inr rfl
      · exact hall c hc

theorem collapseWhitespace_letterWords (n : Nat) :
    collapseWhitespace (join (letterWords (n + 1))) = join (letterWords (n + 1)) := by
  induction n with
  | zero => decide
  | succ n ih =>
    obtain ⟨⟨rest, hrest⟩, -, -⟩ := join_letterWords_shape n
    rw [join_letterWords_succ]
    have h1 : collapseWhitespace (97 :: 32 :: join (letterWords (n + 1))) =
        97 :: collapseWhitespace (32 :: join (letterWords (n + 1))) := by
      rw [collapseWhitespace, if_neg (by decide)]
    have h2 : collapseWhitespace (32 :: join (letterWords (n + 1))) =
        32 :: collapseWhitespace (join (letterWords (n + 1))) := by
      rw [hrest, collapseWhitespace, if_pos (by decide)]
      rw [if_neg (by decide)]
    rw [h1, h2, ih]

theorem collapsePunctuationAux_of_none :
    ∀ (s : Str) (inRun : Bool), (∀ c ∈ s, isPunctuation c = false) →
      collapsePunctuationAux inRun s = s := by
  intro s
  induction s with
  | nil => intro inRun _; cases inRun <;> rfl
  | cons c cs ih =>
    intro inRun h
    have hc : isPunctuation c = false := h c (by simp)
    have hstep : collapsePunctuationAux inRun (c :: cs) = c :: collapsePunctuationAux false cs := by
      cases inRun <;> simp [collapsePunctuationAux, hc]
    rw [hstep, ih false (fun d hd => h d (List.mem_cons_of_mem _ hd))]

theorem trim_of_ends (a b : Nat) (mid : Str) (init : Str) (ha : isWhiteSpace a = false)
    (hb : isWhiteSpace b = false) (h : a :: mid = init ++ [b]) : trim (a :: mid) = a :: mid := by
  unfold trim
  rw [List.dropWhile_cons_of_neg (by simp [ha]), h, List.reverse_append, List.reverse_singleton,
    List.singleton_append, List.dropWhile_cons_of_neg (by simp [hb])]
  simp

theorem cleanText_letterWords (n : Nat) :
    cleanText (join (letterWords (n + 1))) = join (letterWords (n + 1)) := by
  obtain ⟨⟨rest, hrest⟩, ⟨init, hinit⟩, hall⟩ := join_letterWords_shape n
  unfold cleanText
  rw [collapseWhitespace_letterWords]
  have hkept : removeSpecial (join (letterWords (n + 1))) = join (letterWords (n + 1)) := by
    unfold removeSpecial
    rw [List.filter_eq_self]
    intro c hc
    rcases hall c hc with rfl | rfl <;> decide
  have hpunct : collapsePunctuation (join (letterWords (n + 1))) =
      join (letterWords (n + 1)) := by
    unfold collapsePunctuation
    refine collapsePunctuationAux_of_none _ false ?_
    intro c hc
    rcases hall c hc with rfl | rfl <;> decide
  rw [hkept, hpunct, hrest]
  exact trim_of_ends 97 97 rest init (by decide) (by decide) (by rw [← hrest, hinit])

/-! ## The visited set during a batch -/

theorem forEachIdx_visitedUrls (mk : Str → Nat → Record) :
    ∀ (chunks : List Str) (i : Nat) (st : StandardBankScraper),
      (forEachIdx
        (fun s chunk index => { s with scrapedData := s.scrapedData ++ [mk chunk index] })
        chunks i st).visitedUrls = st.visitedUrls := by
  intro chunks
  induction chunks with
  | nil => intro i st; rfl
  | cons c cs ih => intro i st; rw [forEachIdx, ih]

theorem pushRecords_visitedUrls (mk : Str → Nat → Record) (chunks : List Str)
    (st : StandardBankScraper) : (pushRecords mk chunks st).visitedUrls = st.visitedUrls :=
  forEachIdx_visitedUrls mk chunks 0 st

theorem addLink_visitedUrls (cfg : Config) (w : World) (cur : Str) (st : StandardBankScraper)
    (link : Str) : (addLink cfg w cur st link).visitedUrls = st.visitedUrls := by
  unfold addLink
  cases w.URL link (some cur) with
  | none => rfl
  | some resolved =>
    dsimp only
    cases w.URL resolved.href none with
    | none => rfl
    | some urlObj =>
      dsimp only
      split <;> rfl

theorem addLinksToQueue_visitedUrls (cfg : Config) (w : World) (links : List Str) (cur : Str) :
    ∀ st : StandardBankScraper,
      (addLinksToQueue cfg w st links cur).visitedUrls = st.visitedUrls := by
  unfold addLinksToQueue
  induction links with
  | nil => intro st; rfl
  | cons l ls ih =>
    intro st
    rw [List.foldl_cons, ih, addLink_visitedUrls]

theorem addPdfLinks_visitedUrls (cfg : Config) (links : List Str) :
    ∀ st : StandardBankScraper, (addPdfLinks cfg st links).visitedUrls = st.visitedUrls := by
  unfold addPdfLinks
  dsimp only
  induction links.filter (fun link => isPDFUrl cfg link) with
  | nil => intro st; rfl
  | cons l ls ih =>
    intro st
    rw [List.foldl_cons, ih]
    split <;> rfl

theorem saveHtmlRecords_keepsVisited (cfg : Config) (w : World) (url : Str) (page : PageLoad) :
    KeepsVisited (saveHtmlRecords cfg w url page) := by
  intro st st1 h
  unfold saveHtmlRecords at h
  dsimp only at h
  split_ifs at h with hlen
  · cases hc : chunkText cfg (cleanHtmlContent w page.content url) cfg.CHUNK_SIZE with
    | none => rw [hc] at h; simp at h
    | some chunks =>
      rw [hc] at h
      simp only [Option.some.injEq] at h
      subst h
      exact pushRecords_visitedUrls _ _ _
  · simp only [Option.some.injEq] at h
    subst h; rfl

theorem queueLinks_keepsVisited (cfg : Config) (w : World) (url : Str) (links : List Str) :
    KeepsVisited (queueLinks cfg w url links) := by
  intro st st1 h
  unfold queueLinks at h
  simp only [Option.some.injEq] at h
  subst h
  rw [addPdfLinks_visitedUrls, addLinksToQueue_visitedUrls]

theorem processPDF_keepsVisited (cfg : Config) (w : World) (url : Str) :
    KeepsVisited (fun st => processPDF cfg w st url) := by
  intro st st1 h
  dsimp only at h
  unfold processPDF at h
  cases hd : downloadAndProcessPDF w url cfg.BASE_URL with
  | failed =>
    rw [hd] at h
    simp only [Option.some.injEq] at h
    subst h; rfl
  | ok text filename pages =>
    rw [hd] at h
    dsimp only at h
    split_ifs at h with hlen
    · cases hc : chunkText cfg text cfg.CHUNK_SIZE with
      | none => rw [hc] at h; simp at h
      | some chunks =>
        rw [hc] at h
        simp only [Option.some.injEq] at h
        subst h
        exact pushRecords_visitedUrls _ _ _
    · simp only [Option.some.injEq] at h
      subst h; rfl

theorem taskSegments_keepsVisited (cfg : Config) (w : World) (url : Str) :
    ∀ seg ∈ taskSegments cfg w url, KeepsVisited seg := by
  intro seg hseg
  unfold taskSegments at hseg
  split_ifs at hseg with hpdf
  · rw [List.mem_singleton] at hseg
    subst hseg
    exact processPDF_keepsVisited cfg w url
  · unfold htmlSegments at hseg
    cases hg : w.goto url with
    | none => rw [hg] at hseg; simp at hseg
    | some page =>
      rw [hg] at hseg
      dsimp only at hseg
      rcases List.mem_cons.1 hseg with rfl | hseg
      · exact saveHtmlRecords_keepsVisited cfg w url page
      · cases hl : page.links with
        | none => rw [hl] at hseg; simp at hseg
        | some links =>
          rw [hl] at hseg
          rw [List.mem_singleton] at hseg
          subst hseg
          exact queueLinks_keepsVisited cfg w url links

theorem runSegments_visitedUrls :
    ∀ (segs : List Segment) (st st1 : StandardBankScraper),
      (∀ seg ∈ segs, KeepsVisited seg) → runSegments segs st = some st1 →
      st1.visitedUrls = st.visitedUrls := by
  intro segs
  induction segs with
  | nil =>
    intro st st1 _ h
    simp only [runSegments, Option.some.injEq] at h
    subst h; rfl
  | cons seg segs ih =>
    intro st st1 hk h
    rw [runSegments] at h
    cases hs : seg st with
    | none => rw [hs] at h; simp at h
    | some st2 =>
      rw [hs] at h
      dsimp only at h
      rw [ih st2 st1 (fun s hs2 => hk s (List.mem_cons_of_mem _ hs2)) h]
      exact hk seg (by simp) st st2 hs

theorem runSchedule_visitedUrls :
    ∀ (schedule : List Nat) (pending : List (List Segment)) (st st1 : StandardBankScraper),
      (∀ task ∈ pending, ∀ seg ∈ task, KeepsVisited seg) →
      runSchedule schedule pending st = some st1 → st1.visitedUrls = st.visitedUrls := by
  intro schedule
  induction schedule with
  | nil =>
    intro pending st st1 hk h
    rw [runSchedule] at h
    refine runSegments_visitedUrls _ st st1 ?_ h
    intro seg hseg
    obtain ⟨task, ht, hs⟩ := List.mem_flatten.1 hseg
    exact hk task ht seg hs
  | cons c schedule ih =>
    intro pending st st1 hk h
    rw [runSchedule] at h
    cases hp : pending[c]? with
    | none =>
      rw [hp] at h
      exact ih pending st st1 hk h
    | some task =>
      rw [hp] at h
      cases task with
      | nil => exact ih pending st st1 hk h
      | cons seg segs =>
        dsimp only at h
        have hmem : (seg :: segs) ∈ pending := List.getElem?_mem hp
        cases hs : seg st with
        | none => rw [hs] at h; simp at h
        | some st2 =>
          rw [hs] at h
          dsimp only at h
          have hk2 : ∀ task ∈ pending.set c segs, ∀ s ∈ task, KeepsVisited s := by
            intro task ht s hs2
            rcases List.mem_or_eq_of_mem_set ht with h1 | h1
            · exact hk task h1 s hs2
            · subst h1
              exact hk _ hmem s (List.mem_cons_of_mem _ hs2)
          rw [ih _ st2 st1 hk2 h]
          exact hk _ hmem seg (by simp) st st2 hs

theorem runSchedule_batch_visitedUrls (cfg : Config) (w : World) (schedule : List Nat)
    (tasks : List Str) (st st1 : StandardBankScraper)
    (h : runSchedule schedule (tasks.map (taskSegments cfg w)) st = some st1) :
    st1.visitedUrls = st.visitedUrls := by
  refine runSchedule_visitedUrls schedule _ st st1 ?_ h
  intro task ht seg hseg
  obtain ⟨url, -, rfl⟩ := List.mem_map.1 ht
  exact taskSegments_keepsVisited cfg w url seg hseg

/-! ## The batch loop -/

theorem batchLoop_spec (maxConcurrent : Nat) :
    ∀ (queue : List Str) (st : StandardBankScraper) (tasks : List Str),
      ∃ new,
        (batchLoop maxConcurrent queue st tasks).1 = tasks ++ new ∧
        (batchLoop maxConcurrent queue st tasks).2.visitedUrls = st.visitedUrls ++ new ∧
        (batchLoop maxConcurrent queue st tasks).2.scrapedData = st.scrapedData ∧
        new.Nodup ∧ (∀ u ∈ new, u ∉ st.visitedUrls) ∧ (∀ u ∈ new, u ∈ queue) ∧
        (tasks.length ≤ maxConcurrent →
          (batchLoop maxConcurrent queue st tasks).1.length ≤ maxConcurrent) := by
  intro queue
  induction queue with
  | nil =>
    intro st tasks
    exact ⟨[], by simp [batchLoop], by simp [batchLoop], by simp [batchLoop], List.nodup_nil,
      by simp, by simp, by simp [batchLoop]⟩
  | cons url queue ih =>
    intro st tasks
    rw [batchLoop]
    by_cases hlt : tasks.length < maxConcurrent
    · rw [if_pos hlt]
      by_cases hv : url ∈ st.visitedUrls
      · have hc : (!st.visitedUrls.contains url) = false := by simp [hv]
        rw [hc]
        simp only [Bool.false_eq_true, if_false]
        obtain ⟨new, h1, h2, h3, h4, h5, h6, h7⟩ := ih st tasks
        exact ⟨new, h1, h2, h3, h4, h5, fun u hu => List.mem_cons_of_mem _ (h6 u hu), h7⟩
      · have hc : (!st.visitedUrls.contains url) = true := by simp [hv]
        rw [hc]
        simp only [if_true]
        obtain ⟨new, h1, h2, h3, h4, h5, h6, h7⟩ := ih (markVisited st url) (tasks ++ [url])
        refine ⟨url :: new, ?_, ?_, ?_, ?_, ?_, ?_, ?_⟩
        · rw [h1]; simp
        · rw [h2]; simp [markVisited]
        · rw [h3]; rfl
        · refine List.nodup_cons.2 ⟨?_, h4⟩
          intro hmem
          exact h5 url hmem (by simp [markVisited])
        · intro u hu
          rcases List.mem_cons.1 hu with rfl | hu
          · exact hv
          · intro hmem
            exact h5 u hu (by simp [markVisited, hmem])
        · intro u hu
          rcases List.mem_cons.1 hu with rfl | hu
          · simp
          · exact List.mem_cons_of_mem _ (h6 u hu)
        · intro _
          exact h7 (by simp only [List.length_append, List.length_singleton]; omega)
    · rw [if_neg hlt]
      exact ⟨[], by simp, by simp, by simp, List.nodup_nil, by simp, by simp, by simp⟩

/-! ## Runs of the crawl loop -/

theorem runSegments_append :
    ∀ (a b : List Segment) (st : StandardBankScraper),
      runSegments (a ++ b) st = (runSegments a st).bind (runSegments b) := by
  intro a
  induction a with
  | nil => intro b st; rfl
  | cons seg segs ih =>
    intro b st
    rw [List.cons_append, runSegments, runSegments]
    cases seg st with
    | none => rfl
    | some st1 => exact ih b st1

/-- Tasks completed in the order of their dispatch are the empty schedule. -/
theorem settle_eq_runSchedule (cfg : Config) (w : World) :
    ∀ (tasks : List Str) (st : StandardBankScraper),
      settle cfg w tasks st = runSchedule [] (tasks.map (taskSegments cfg w)) st := by
  intro tasks
  induction tasks with
  | nil => intro st; rfl
  | cons url tasks ih =>
    intro st
    rw [settle, runSchedule, List.map_cons, List.flatten_cons, runSegments_append,
      ← processUrlBody_eq_runSegments]
    cases processUrlBody cfg w st url with
    | none => rfl
    | some st1 =>
      have := ih st1
      rw [runSchedule] at this
      exact this

/-- The crawl loop with tasks completed in dispatch order is the run with empty schedules. -/
theorem crawlLoop_eq_crawlRun (cfg : Config) (w : World) :
    ∀ (fuel : Nat) (st : StandardBankScraper),
      crawlLoop cfg w fuel st =
        (crawlRun cfg w [] fuel st).2.map
          (fun st1 => (st1, (crawlRun cfg w [] fuel st).1.map Prod.snd)) := by
  intro fuel
  induction fuel with
  | zero => intro st; rfl
  | succ fuel ih =>
    intro st
    rw [crawlLoop, crawlRun]
    by_cases hc : st.urlQueue.length > 0 ∧ st.scrapedData.length < cfg.MAX_PAGES
    · rw [if_pos hc, if_pos hc]
      dsimp only
      rw [settle_eq_runSchedule]
      simp only [List.headD_nil, List.tail_nil]
      cases runSchedule [] ((batchLoop cfg.MAX_CONCURRENT_PAGES st.urlQueue st []).1.map
          (taskSegments cfg w)) (batchLoop cfg.MAX_CONCURRENT_PAGES st.urlQueue st []).2 with
      | none => rfl
      | some st2 =>
        dsimp only
        rw [ih st2]
        cases (crawlRun cfg w [] fuel st2).2 with
        | none => rfl
        | some st3 => rfl
    · rw [if_neg hc, if_neg hc]
      rfl

theorem crawlRun_head (cfg : Config) (w : World) (schedules : List (List Nat)) (fuel : Nat)
    (st : StandardBankScraper) :
    ∀ e ∈ (crawlRun cfg w schedules fuel st).1.head?, e.1 = st := by
  cases fuel with
  | zero => intro e he; simp [crawlRun] at he
  | succ fuel =>
    intro e he
    rw [crawlRun] at he
    by_cases hc : st.urlQueue.length > 0 ∧ st.scrapedData.length < cfg.MAX_PAGES
    · rw [if_pos hc] at he
      dsimp only at he
      cases hr : runSchedule (schedules.headD [])
          ((batchLoop cfg.MAX_CONCURRENT_PAGES st.urlQueue st []).1.map (taskSegments cfg w))
          (batchLoop cfg.MAX_CONCURRENT_PAGES st.urlQueue st []).2 with
      | none =>
        rw [hr] at he
        simp at he
        rw [← he]
      | some st2 =>
        rw [hr] at he
        simp at he
        rw [← he]
    · rw [if_neg hc] at he
      simp at he

/-! ## The selection of the main content -/

/-- The two models of `cleanHtmlContent` agree when the world selects the main content as
`selectMainContent` does. -/
theorem cleanHtmlContent_eq_dom (w : World) (load : Str → Dom) (html url : Str)
    (h : ∀ x, w.mainContent x = selectMainContent (load x)) :
    cleanHtmlContent w html url = cleanHtmlContentDom load html url := by
  unfold cleanHtmlContent cleanHtmlContentDom
  rw [h]

theorem selectLoop_first_match (dom : Dom) (s : Str) (post : List Str) :
    ∀ pre : List Str, (∀ p ∈ pre, dom p = []) → dom s ≠ [] →
      selectLoop dom (pre ++ s :: post) = selectionText (dom s) := by
  intro pre
  induction pre with
  | nil =>
    intro _ hs
    rw [List.nil_append, selectLoop]
    rw [if_pos (List.length_pos.2 hs)]
  | cons p pre ih =>
    intro hpre hs
    rw [List.cons_append, selectLoop]
    have hp : dom p = [] := hpre p (by simp)
    rw [hp]
    simp only [List.length_nil, gt_iff_lt, Nat.lt_irrefl, if_false]
    exact ih (fun q hq => hpre q (List.mem_cons_of_mem _ hq)) hs

theorem selectLoop_no_match (dom : Dom) :
    ∀ selectors : List Str, (∀ p ∈ selectors, dom p = []) → selectLoop dom selectors = [] := by
  intro selectors
  induction selectors with
  | nil => intro _; rfl
  | cons p rest ih =>
    intro h
    rw [selectLoop]
    rw [h p (by simp)]
    simp only [List.length_nil, gt_iff_lt, Nat.lt_irrefl, if_false]
    exact ih (fun q hq => h q (List.mem_cons_of_mem _ hq))

/-! ## The content of the records -/

theorem zipWith_htmlRecord_content (url language : Str) (chunks : List Str) (r : Record)
    (hr : r ∈ List.zipWith (htmlRecord url language chunks) chunks
      (List.range' 0 chunks.length)) : r.content ∈ chunks := by
  obtain ⟨chunk, index, hmem, -, -, rfl⟩ := mem_zipWith_range' _ chunks 0 r hr
  exact hmem

theorem zipWith_pdfRecord_content (url language : Str) (pages : Nat) (filename : Str)
    (chunks : List Str) (r : Record)
    (hr : r ∈ List.zipWith (pdfRecord url language pages filename chunks) chunks
      (List.range' 0 chunks.length)) : r.content ∈ chunks := by
  obtain ⟨chunk, index, hmem, -, -, rfl⟩ := mem_zipWith_range' _ chunks 0 r hr
  exact hmem


/-! ## The claims -/

/-- Claim C1 (chunk coverage).  For every text and every `chunkSize ≥ 1`: if every word group
`words.slice(i, i + chunkSize)` that the loop of `chunkText` visits (`i = 0, chunkSize, ...`)
passes the minimum-length filter, then `chunkText` returns a list of chunks, the chunks joined
by single spaces are the original text, and the words of the chunks, concatenated in order,
are exactly `text.split(" ")`. -/
theorem chunkText_coverage (cfg : Config) (text : Str) (chunkSize : Nat) (hk : 1 ≤ chunkSize)
    (hkeep : ∀ i, i * chunkSize < (split text).length →
      cfg.MIN_CONTENT_LENGTH ≤
        (join (slice (split text) (i * chunkSize) (i * chunkSize + chunkSize))).length) :
    ∃ chunks, chunkText cfg text chunkSize = some chunks ∧ join chunks = text ∧
      chunks.flatMap split = split text := by
  set G := groupsFrom (split text) chunkSize ((split text).length + 1) 0 with hG
  have hflat : G.flatten = split text := by
    simpa using groupsFrom_join (split text) chunkSize hk (split text).length 0 (by omega)
  have hfilter : (G.map join).filter (fun c => decide (cfg.MIN_CONTENT_LENGTH ≤ c.length))
      = G.map join := by
    rw [List.filter_eq_self]
    intro c hc
    obtain ⟨g, hg, rfl⟩ := List.mem_map.1 hc
    obtain ⟨m, hm, rfl⟩ := groupsFrom_mem _ _ _ _ g hg
    simp only [Nat.zero_add] at hm ⊢
    simpa using hkeep m hm
  have hne : G ≠ [] := by
    intro h
    rw [h] at hflat
    exact split_ne_nil text hflat.symm
  refine ⟨G.map join, ?_, ?_, ?_⟩
  · rw [chunkText_eq cfg text chunkSize hk, ← hG, hfilter, if_neg (by simpa using hne)]
  · rw [join_map_join G (fun g hg => (groupsFrom_mem_props _ _ hk _ _ g hg).1), hflat,
      join_split]
  · rw [← hflat, List.flatMap_def, List.map_map]
    congr 1
    conv_rhs => rw [← List.map_id G]
    apply List.map_congr_left
    intro g hg
    simpa using split_join_group text chunkSize hk _ _ g hg

/-- Witness for C1 with the values of `src/config.js`: two words of fifty code units, one word
per chunk. -/
theorem chunkText_coverage_witness :
    ∃ chunks, chunkText CONFIG (word50 97 ++ 32 :: word50 98) 1 = some chunks ∧
      join chunks = word50 97 ++ 32 :: word50 98 ∧
      chunks.flatMap split = split (word50 97 ++ 32 :: word50 98) :=
  chunkText_coverage CONFIG (word50 97 ++ 32 :: word50 98) 1 (by decide) (by
    intro i hi
    have h2 : (split (word50 97 ++ 32 :: word50 98)).length = 2 := by decide
    rw [h2] at hi
    have : i = 0 ∨ i = 1 := by omega
    rcases this with rfl | rfl <;> decide)

/-- Claim C2 (chunk floor escape hatch).  For every text shorter than `MIN_CONTENT_LENGTH`
and every `chunkSize ≥ 1`, `chunkText` returns the one-element list holding the text itself. -/
theorem chunkText_floor (cfg : Config) (text : Str) (chunkSize : Nat) (hk : 1 ≤ chunkSize)
    (hshort : text.length < cfg.MIN_CONTENT_LENGTH) :
    chunkText cfg text chunkSize = some [text] := by
  rw [chunkText_eq cfg text chunkSize hk, if_pos]
  rw [List.filter_eq_nil_iff]
  intro c hc
  obtain ⟨g, hg, rfl⟩ := List.mem_map.1 hc
  have h1 := join_length_le_of_sublist (groupsFrom_mem_props _ _ hk _ _ g hg).2.2
  rw [join_split] at h1
  simp
  omega

/-- Witness for C2 with the values of `src/config.js`: the text `"a b c"`. -/
theorem chunkText_floor_witness :
    (str "a b c").length < CONFIG.MIN_CONTENT_LENGTH ∧
      chunkText CONFIG (str "a b c") 1 = some [str "a b c"] :=
  ⟨by decide, chunkText_floor CONFIG (str "a b c") 1 (by decide) (by decide)⟩

/-- Counterexample to C3 as stated: with the values of `src/config.js` and `chunkSize = 1`, the
text `"a b c"` has every word group dropped, so `chunkText` falls back to the whole text, whose
single (last) chunk holds three words, more than `chunkSize`. -/
theorem chunkText_size_bound_fails :
    ∃ chunks c, chunkText CONFIG (str "a b c") 1 = some chunks ∧ chunks.getLast? = some c ∧
      ¬ (split c).length ≤ 1 :=
  ⟨[str "a b c"], str "a b c", by decide, by decide, by decide⟩

/-- Claim C3 as amended (chunk size bound).  For every text and every `chunkSize ≥ 1`: if at
least one word group passes the minimum-length filter (so that the fallback `[text]` is not
taken), then `chunkText` returns a non-empty list in which every chunk except the last splits
on single spaces into exactly `chunkSize` pieces and the last chunk into between 1 and
`chunkSize` pieces. -/
theorem chunkText_size_bound (cfg : Config) (text : Str) (chunkSize : Nat) (hk : 1 ≤ chunkSize)
    (hsome : ∃ i, i * chunkSize < (split text).length ∧
      cfg.MIN_CONTENT_LENGTH ≤
        (join (slice (split text) (i * chunkSize) (i * chunkSize + chunkSize))).length) :
    ∃ chunks, chunkText cfg text chunkSize = some chunks ∧ chunks ≠ [] ∧
      (∀ c ∈ chunks.dropLast, (split c).length = chunkSize) ∧
      (∀ c ∈ chunks.getLast?, 1 ≤ (split c).length ∧ (split c).length ≤ chunkSize) := by
  set G := groupsFrom (split text) chunkSize ((split text).length + 1) 0 with hG
  set kept := (G.map join).filter (fun c => decide (cfg.MIN_CONTENT_LENGTH ≤ c.length))
    with hkept
  have hne : kept ≠ [] := by
    obtain ⟨i, hi, hlen⟩ := hsome
    have hmem := groupsFrom_mem_of_lt (split text) chunkSize hk i (split text).length 0
      (Nat.le_refl _) (by simpa using hi)
    simp only [Nat.zero_add] at hmem
    have : join (slice (split text) (i * chunkSize) (i * chunkSize + chunkSize)) ∈ kept := by
      rw [hkept, List.mem_filter]
      exact ⟨List.mem_map_of_mem _ hmem, by simpa using hlen⟩
    exact List.ne_nil_of_mem this
  have hall : ∀ c ∈ kept, 1 ≤ (split c).length ∧ (split c).length ≤ chunkSize := by
    intro c hc
    obtain ⟨g, hg, rfl⟩ := List.mem_map.1 (List.mem_filter.1 hc).1
    rw [split_join_group text chunkSize hk _ _ g hg]
    obtain ⟨h1, h2, -⟩ := groupsFrom_mem_props _ _ hk _ _ g hg
    exact ⟨List.length_pos.2 h1, h2⟩
  refine ⟨kept, ?_, hne, ?_, ?_⟩
  · rw [chunkText_eq cfg text chunkSize hk, if_neg hne]
  · intro c hc
    have hsub : kept.dropLast.Sublist (G.map join).dropLast :=
      sublist_dropLast (List.filter_sublist _)
    have hc2 := hsub.subset hc
    rw [← List.map_dropLast] at hc2
    obtain ⟨g, hg, rfl⟩ := List.mem_map.1 hc2
    rw [split_join_group text chunkSize hk _ _ g (List.mem_of_mem_dropLast hg)]
    exact groupsFrom_dropLast _ _ _ _ g hg
  · intro c hc
    exact hall c (List.mem_of_mem_getLast? hc)

/-- Witness for the amended C3 with the values of `src/config.js`: three words of fifty code
units, two words per chunk. -/
theorem chunkText_size_bound_witness :
    ∃ chunks, chunkText CONFIG (word50 97 ++ 32 :: word50 98 ++ 32 :: word50 99) 2 = some chunks ∧
      chunks ≠ [] ∧ (∀ c ∈ chunks.dropLast, (split c).length = 2) ∧
      (∀ c ∈ chunks.getLast?, 1 ≤ (split c).length ∧ (split c).length ≤ 2) :=
  chunkText_size_bound CONFIG (word50 97 ++ 32 :: word50 98 ++ 32 :: word50 99) 2 (by decide)
    ⟨0, by decide, by decide⟩

/-- Evaluation for claim C4 (idempotent normalization): on `"a @ b"` the code units around the
removed `@` leave two spaces, `cleanText` gives `"a  b"`, and a second pass gives `"a b"`; so
`cleanText (cleanText x)` differs from `cleanText x` at this input. -/
theorem cleanText_not_idempotent :
    cleanText (str "a @ b") = str "a  b" ∧ cleanText (cleanText (str "a @ b")) = str "a b" ∧
      cleanText (cleanText (str "a @ b")) ≠ cleanText (str "a @ b") := by
  decide

/-- Claim C5 (record pairing invariant).  Whatever `processHTMLPage` or `processPDF` appends
to `scrapedData`, every appended record has `chunk_index` and `total_chunks` both `null`, or
both set with `1 ≤ chunk_index ≤ total_chunks` and `total_chunks ≥ 2`; and they are both `null`
exactly when one record (one chunk) was appended.  The same holds for every list of chunks, by
`pushRecords_pairing`. -/
theorem record_pairing (cfg : Config) (w : World) (st st1 : StandardBankScraper) (url : Str)
    (h : processHTMLPage cfg w st url = some st1 ∨ processPDF cfg w st url = some st1) :
    ∃ appended, st1.scrapedData = st.scrapedData ++ appended ∧
      ∀ r ∈ appended,
        ((r.chunk_index = none ∧ r.total_chunks = none) ∨
          ∃ i t, r.chunk_index = some i ∧ r.total_chunks = some t ∧ 1 ≤ i ∧ i ≤ t ∧ 2 ≤ t) ∧
        ((r.chunk_index = none ∧ r.total_chunks = none) ↔ appended.length = 1) := by
  rcases h with h | h
  · rcases processHTMLPage_scrapedData cfg w st st1 url h with h1 | ⟨language, chunks, h1⟩
    · exact ⟨[], by simpa using h1, by simp⟩
    · refine ⟨_, h1, fun r hr => ?_⟩
      have := pushRecords_pairing (htmlRecord url language chunks) chunks
        (fun _ _ => rfl) (fun _ _ => rfl) r hr
      simpa using this
  · rcases processPDF_scrapedData cfg w st st1 url h with h1 | ⟨language, pages, filename, chunks, h1⟩
    · exact ⟨[], by simpa using h1, by simp⟩
    · refine ⟨_, h1, fun r hr => ?_⟩
      have := pushRecords_pairing (pdfRecord url language pages filename chunks) chunks
        (fun _ _ => rfl) (fun _ _ => rfl) r hr
      simpa using this

/-- Witness for C5: the seed page of `demoWorld`, two chunks. -/
theorem record_pairing_witness :
    ∃ appended, demoAfterSeed.scrapedData =
        (markVisited StandardBankScraper.new demoConfig.BASE_URL).scrapedData ++ appended ∧
      ∀ r ∈ appended,
        ((r.chunk_index = none ∧ r.total_chunks = none) ∨
          ∃ i t, r.chunk_index = some i ∧ r.total_chunks = some t ∧ 1 ≤ i ∧ i ≤ t ∧ 2 ≤ t) ∧
        ((r.chunk_index = none ∧ r.total_chunks = none) ↔ appended.length = 1) :=
  record_pairing demoConfig demoWorld (markVisited StandardBankScraper.new demoConfig.BASE_URL)
    demoAfterSeed demoConfig.BASE_URL (Or.inl (by decide))

/-- Counterexample to C6 as stated: the queue after the call is not
`["https://www.standardbank.co.mz/a"]`. -/
theorem scope_filter_counterexample :
    (addLinksToQueue CONFIG demoWorld StandardBankScraper.new
        [str "https://www.standardbank.co.mz/a", str "https://evil.example.com/b",
         str "https://standardbank.co.mz.attacker.net/c"] CONFIG.BASE_URL).urlQueue ≠
      [str "https://www.standardbank.co.mz/a"] := by
  decide

/-- Claim C6 as amended (scope filter).  With `TARGET_DOMAIN = "standardbank.co.mz"`, an empty
visited set and an empty queue, and a URL parser that reads the three links as the WHATWG parser
does, `addLinksToQueue` admits the first and the third link: the host name
`standardbank.co.mz.attacker.net` contains the target domain.  The queue afterwards is
`["https://www.standardbank.co.mz/a", "https://standardbank.co.mz.attacker.net/c"]`. -/
theorem scope_filter_admits_lookalike (w : World) (currentUrl : Str)
    (ha : ∀ base, w.URL (str "https://www.standardbank.co.mz/a") base =
      some { href := str "https://www.standardbank.co.mz/a",
             hostname := str "www.standardbank.co.mz" })
    (hb : ∀ base, w.URL (str "https://evil.example.com/b") base =
      some { href := str "https://evil.example.com/b", hostname := str "evil.example.com" })
    (hc : ∀ base, w.URL (str "https://standardbank.co.mz.attacker.net/c") base =
      some { href := str "https://standardbank.co.mz.attacker.net/c",
             hostname := str "standardbank.co.mz.attacker.net" }) :
    (addLinksToQueue CONFIG w StandardBankScraper.new
        [str "https://www.standardbank.co.mz/a", str "https://evil.example.com/b",
         str "https://standardbank.co.mz.attacker.net/c"] currentUrl).urlQueue =
      [str "https://www.standardbank.co.mz/a", str "https://standardbank.co.mz.attacker.net/c"] := by
  simp only [addLinksToQueue, List.foldl_cons, List.foldl_nil, addLink, ha, hb, hc]
  decide

/-- Witness for the amended C6, with the parser fragment `simpleURL`. -/
theorem scope_filter_admits_lookalike_witness :
    (addLinksToQueue CONFIG demoWorld StandardBankScraper.new
        [str "https://www.standardbank.co.mz/a", str "https://evil.example.com/b",
         str "https://standardbank.co.mz.attacker.net/c"] CONFIG.BASE_URL).urlQueue =
      [str "https://www.standardbank.co.mz/a", str "https://standardbank.co.mz.attacker.net/c"] :=
  scope_filter_admits_lookalike demoWorld CONFIG.BASE_URL (fun _ => rfl)
    (fun _ => rfl) (fun _ => rfl)

/-- Counterexample to C7 as stated: the seed `https://www.standardbank.co.mz` is an in-scope
absolute URL that the parser serialises with a final `/`.  With the seed in `visitedUrls` and an
empty queue, `addLinksToQueue` with the seed does change `urlQueue`: it pushes
`https://www.standardbank.co.mz/`.  And from a fresh scraper, passing the seed twice leaves a
queue that holds the string passed zero times, not once. -/
theorem addLinksToQueue_dedup_fails :
    CONFIG.BASE_URL ∈ (markVisited StandardBankScraper.new CONFIG.BASE_URL).visitedUrls ∧
    simpleURL CONFIG.BASE_URL none =
      some { href := str "https://www.standardbank.co.mz/",
             hostname := str "www.standardbank.co.mz" } ∧
    (addLinksToQueue CONFIG demoWorld (markVisited StandardBankScraper.new CONFIG.BASE_URL)
        [CONFIG.BASE_URL] CONFIG.BASE_URL).urlQueue = [str "https://www.standardbank.co.mz/"] ∧
    (addLinksToQueue CONFIG demoWorld (markVisited StandardBankScraper.new CONFIG.BASE_URL)
        [CONFIG.BASE_URL] CONFIG.BASE_URL).urlQueue ≠
      (markVisited StandardBankScraper.new CONFIG.BASE_URL).urlQueue ∧
    (addLinksToQueue CONFIG demoWorld StandardBankScraper.new
        [CONFIG.BASE_URL, CONFIG.BASE_URL] CONFIG.BASE_URL).urlQueue.count CONFIG.BASE_URL = 0 := by
  decide

/-- Claim C7 as amended (dedup of `addLinksToQueue`).  Let `u` be an in-scope absolute URL: the
parser resolves it against every base to the same object `o`, whose serialisation `o.href`
parses to `o` again and whose host name contains `TARGET_DOMAIN`.  The dedup is keyed on the
serialised string `o.href`: for every state, passing `u` twice, in one call or in two successive
calls, leaves at most one more occurrence of `o.href` in `urlQueue`; if `o.href` was neither
visited nor queued, the queue then holds it exactly once; and if `o.href` is in `visitedUrls`,
`urlQueue` is unchanged.  When `u` is its own serialisation (`o.href = u`) this is the statement
of the claim about `u` itself. -/
theorem addLinksToQueue_dedup (cfg : Config) (w : World) (st : StandardBankScraper)
    (u currentUrl currentUrl2 : Str) (o : UrlObj)
    (habs : ∀ base, w.URL u base = some o) (hre : w.URL o.href none = some o)
    (hscope : includes o.hostname cfg.TARGET_DOMAIN = true) :
    (addLinksToQueue cfg w st [u, u] currentUrl).urlQueue.count o.href ≤
      st.urlQueue.count o.href + 1 ∧
    (addLinksToQueue cfg w (addLinksToQueue cfg w st [u] currentUrl) [u]
        currentUrl2).urlQueue.count o.href ≤ st.urlQueue.count o.href + 1 ∧
    (o.href ∉ st.visitedUrls → o.href ∉ st.urlQueue →
      (addLinksToQueue cfg w st [u, u] currentUrl).urlQueue.count o.href = 1 ∧
      (addLinksToQueue cfg w (addLinksToQueue cfg w st [u] currentUrl) [u]
        currentUrl2).urlQueue.count o.href = 1) ∧
    (o.href ∈ st.visitedUrls →
      (addLinksToQueue cfg w st [u] currentUrl).urlQueue = st.urlQueue ∧
      (addLinksToQueue cfg w st [u, u] currentUrl).urlQueue = st.urlQueue ∧
      (addLinksToQueue cfg w (addLinksToQueue cfg w st [u] currentUrl) [u]
        currentUrl2).urlQueue = st.urlQueue) ∧
    (o.href = u →
      (addLinksToQueue cfg w st [u, u] currentUrl).urlQueue.count u ≤ st.urlQueue.count u + 1 ∧
      (addLinksToQueue cfg w (addLinksToQueue cfg w st [u] currentUrl) [u]
        currentUrl2).urlQueue.count u ≤ st.urlQueue.count u + 1 ∧
      (u ∉ st.visitedUrls → u ∉ st.urlQueue →
        (addLinksToQueue cfg w st [u, u] currentUrl).urlQueue.count u = 1 ∧
        (addLinksToQueue cfg w (addLinksToQueue cfg w st [u] currentUrl) [u]
          currentUrl2).urlQueue.count u = 1) ∧
      (u ∈ st.visitedUrls →
        (addLinksToQueue cfg w st [u] currentUrl).urlQueue = st.urlQueue ∧
        (addLinksToQueue cfg w st [u, u] currentUrl).urlQueue = st.urlQueue ∧
        (addLinksToQueue cfg w (addLinksToQueue cfg w st [u] currentUrl) [u]
          currentUrl2).urlQueue = st.urlQueue)) := by
  have key :
      (addLinksToQueue cfg w st [u, u] currentUrl).urlQueue.count o.href ≤
        st.urlQueue.count o.href + 1 ∧
      (addLinksToQueue cfg w (addLinksToQueue cfg w st [u] currentUrl) [u]
          currentUrl2).urlQueue.count o.href ≤ st.urlQueue.count o.href + 1 ∧
      (o.href ∉ st.visitedUrls → o.href ∉ st.urlQueue →
        (addLinksToQueue cfg w st [u, u] currentUrl).urlQueue.count o.href = 1 ∧
        (addLinksToQueue cfg w (addLinksToQueue cfg w st [u] currentUrl) [u]
          currentUrl2).urlQueue.count o.href = 1) ∧
      (o.href ∈ st.visitedUrls →
        (addLinksToQueue cfg w st [u] currentUrl).urlQueue = st.urlQueue ∧
        (addLinksToQueue cfg w st [u, u] currentUrl).urlQueue = st.urlQueue ∧
        (addLinksToQueue cfg w (addLinksToQueue cfg w st [u] currentUrl) [u]
          currentUrl2).urlQueue = st.urlQueue) := by
    simp only [addLinksToQueue, List.foldl_cons, List.foldl_nil,
      addLink_resolved cfg w _ _ u o habs hre hscope]
    by_cases h1 : o.href ∈ st.visitedUrls
    · simp [h1]
    · by_cases h2 : o.href ∈ st.urlQueue
      · simp [h1, h2]
      · simp [h1, h2, List.count_eq_zero_of_not_mem h2]
  refine ⟨key.1, key.2.1, key.2.2.1, key.2.2.2, ?_⟩
  intro hself
  rw [hself] at key
  exact key

/-- Witness for the amended C7: the seed, which the parser serialises with a final `/`, passed
twice in one call on a fresh scraper; the queue holds the serialised string once. -/
theorem addLinksToQueue_dedup_witness :
    (addLinksToQueue CONFIG demoWorld StandardBankScraper.new
        [CONFIG.BASE_URL, CONFIG.BASE_URL]
        CONFIG.BASE_URL).urlQueue.count (str "https://www.standardbank.co.mz/") = 1 :=
  ((addLinksToQueue_dedup CONFIG demoWorld StandardBankScraper.new
      CONFIG.BASE_URL CONFIG.BASE_URL CONFIG.BASE_URL
      { href := str "https://www.standardbank.co.mz/", hostname := str "www.standardbank.co.mz" }
      (fun _ => rfl) rfl (by decide)).2.2.1 (by decide) (by decide)).1

/-- Claim C8 (language default).  For every text on which the detector reports `"und"` and
every source URL, the language of the record is `"pt"`. -/
theorem language_default (franc : Str → Option Str) (text url : Str)
    (hund : franc text = some (str "und")) : recordLanguage franc text url = str "pt" := by
  have hmap : languageMap (str "und") = some (str "pt") := by decide
  have hpt : jsOr (str "pt") (str "pt") = str "pt" := by decide
  unfold recordLanguage detectLanguage
  rw [hund]
  dsimp only
  rw [hmap]
  dsimp only
  rw [hpt]
  rfl

/-- Witness for C8: a detector that always reports `"und"`, on an English-marked URL. -/
theorem language_default_witness :
    recordLanguage (fun _ => some (str "und")) (str "12345")
      (str "https://www.standardbank.co.mz/en/about") = str "pt" :=
  language_default (fun _ => some (str "und")) (str "12345")
    (str "https://www.standardbank.co.mz/en/about") rfl

/-- Evaluation for claim C9 (URL fallback): the detector reports `"fra"`, the URL contains the
marker `/en/` (so `detectFromUrl` gives `"en"`), and the language of the record is `"pt"`:
`detectLanguage` never returns a falsy value, so the right operand of `||` is never used. -/
theorem language_url_fallback_unreachable :
    recordLanguage (fun _ => some (str "fra")) (str "bonjour tout le monde")
        (str "https://www.standardbank.co.mz/en/about") = str "pt" ∧
      detectFromUrl (str "https://www.standardbank.co.mz/en/about") = str "en" := by
  decide

/-- Claim C10 (page cap halt).  With `MAX_PAGES = 1`: from every state that holds at least one
record the crawl loop stops at once and dispatches nothing, whatever `urlQueue` holds; and in a
run of `scrape` in which the processing of the seed appends at least one record, the only batch
dispatched is the one with the seed, and the run ends in the state reached after the seed. -/
theorem page_cap_halt (cfg : Config) (w : World) (hcap : cfg.MAX_PAGES = 1) :
    (∀ (st : StandardBankScraper) (fuel : Nat), 1 ≤ st.scrapedData.length →
      crawlLoop cfg w (fuel + 1) st = some (st, [])) ∧
    (∀ (st1 : StandardBankScraper) (fuel : Nat), 1 ≤ cfg.MAX_CONCURRENT_PAGES →
      processUrl cfg w StandardBankScraper.new cfg.BASE_URL = some st1 →
      1 ≤ st1.scrapedData.length →
      scrape cfg w (fuel + 2) = some (st1, [[cfg.BASE_URL]])) := by
  refine ⟨fun st fuel h => crawlLoop_cap_reached cfg w st fuel (by omega), ?_⟩
  intro st1 fuel hmax hseed hrec
  have hseed2 : processUrlBody cfg w (markVisited StandardBankScraper.new cfg.BASE_URL)
      cfg.BASE_URL = some st1 := by
    simpa [processUrl, StandardBankScraper.new] using hseed
  have hbatch : batchLoop cfg.MAX_CONCURRENT_PAGES [cfg.BASE_URL]
      { StandardBankScraper.new with urlQueue := [cfg.BASE_URL] } [] =
      ([cfg.BASE_URL], markVisited StandardBankScraper.new cfg.BASE_URL) := by
    have h0 : ([] : List Str).length < cfg.MAX_CONCURRENT_PAGES := by simpa using hmax
    have h1 : cfg.MAX_CONCURRENT_PAGES ≠ 0 := by omega
    simp [batchLoop, h1, StandardBankScraper.new, markVisited]
  unfold scrape
  have hq : ({ StandardBankScraper.new with
      urlQueue := StandardBankScraper.new.urlQueue ++ [cfg.BASE_URL] } : StandardBankScraper) =
      { StandardBankScraper.new with urlQueue := [cfg.BASE_URL] } := rfl
  dsimp only
  rw [hq, crawlLoop, if_pos (by simp [StandardBankScraper.new, hcap])]
  dsimp only
  rw [hbatch]
  dsimp only
  rw [settle, hseed2]
  dsimp only
  rw [settle]
  dsimp only
  rw [crawlLoop_cap_reached cfg w st1 fuel (by omega)]

/-- Witness for C10: in `demoWorld` the seed yields records and leaves two links on the queue,
and the run dispatches the seed only. -/
theorem page_cap_halt_witness :
    demoAfterSeed.urlQueue =
        [str "https://www.standardbank.co.mz/a", str "https://www.standardbank.co.mz/b"] ∧
      scrape demoConfig demoWorld 2 = some (demoAfterSeed, [[demoConfig.BASE_URL]]) :=
  ⟨by decide, (page_cap_halt demoConfig demoWorld rfl).2 demoAfterSeed 0 (by decide)
    (by decide) (by decide)⟩

/-- Counterexample to C11 as stated: with the values of `src/config.js`, the text of `demoWorld`
has two words and no word group is dropped, `⌈2 / 500⌉ = 1` chunk is returned and the page
yields one record, but its `chunk_index` and `total_chunks` are `null`, not `1`. -/
theorem chunk_count_single_chunk_unnumbered :
    (split demoText).length = 2 ∧ chunkText CONFIG demoText CONFIG.CHUNK_SIZE = some [demoText] ∧
    ∃ st1 r, processHTMLPage CONFIG demoWorld StandardBankScraper.new CONFIG.BASE_URL = some st1 ∧
      st1.scrapedData = [r] ∧ r.chunk_index = none ∧ r.total_chunks = none ∧
      r.chunk_index ≠ some 1 := by
  refine ⟨by decide, by decide, ?_⟩
  exact ⟨(processHTMLPage CONFIG demoWorld StandardBankScraper.new CONFIG.BASE_URL).getD
      StandardBankScraper.new,
    htmlRecord CONFIG.BASE_URL (str "pt") [demoText] demoText 0,
    by decide, by decide, by decide, by decide, by decide⟩

/-- Claim C11 as amended (end-to-end chunk count).  For a page whose cleaned text has `n` words
(`n = text.split(" ").length`) and `CHUNK_SIZE = k ≥ 1`: if no word group is dropped by the
minimum-length filter, `chunkText` returns exactly `⌈n / k⌉` chunks and `processHTMLPage` appends
that many records, one per chunk in order; when `⌈n / k⌉ ≥ 2` record `j` (from 0) has
`chunk_index = j + 1` and `total_chunks = ⌈n / k⌉`, and when `⌈n / k⌉ = 1` the single record has
both fields `null`.  In particular a text of 1200 non-empty words separated by single spaces,
with `k = 500` and `MIN_CONTENT_LENGTH = 50`, yields exactly 3 records with `chunk_index` 1, 2,
3 and `total_chunks` 3. -/
theorem chunk_count_records (cfg : Config) (w : World) (st : StandardBankScraper) (url : Str)
    (page : PageLoad) (hgoto : w.goto url = some page) (hk : 1 ≤ cfg.CHUNK_SIZE) :
    ((∀ i, i * cfg.CHUNK_SIZE < (split (cleanHtmlContent w page.content url)).length →
        cfg.MIN_CONTENT_LENGTH ≤
          (join (slice (split (cleanHtmlContent w page.content url)) (i * cfg.CHUNK_SIZE)
            (i * cfg.CHUNK_SIZE + cfg.CHUNK_SIZE))).length) →
      ∃ chunks st1 appended,
        chunkText cfg (cleanHtmlContent w page.content url) cfg.CHUNK_SIZE = some chunks ∧
        chunks.length =
          ((split (cleanHtmlContent w page.content url)).length + cfg.CHUNK_SIZE - 1) /
            cfg.CHUNK_SIZE ∧
        processHTMLPage cfg w st url = some st1 ∧
        st1.scrapedData = st.scrapedData ++ appended ∧
        appended.length = chunks.length ∧
        ∀ j r, appended[j]? = some r →
          some r.content = chunks[j]? ∧
          r.chunk_index = (if 2 ≤ chunks.length then some (j + 1) else none) ∧
          r.total_chunks = (if 2 ≤ chunks.length then some chunks.length else none)) ∧
    (∀ words : List Str, words.length = 1200 → (∀ v ∈ words, v ≠ [] ∧ 32 ∉ v) →
      cleanHtmlContent w page.content url = join words →
      cfg.CHUNK_SIZE = 500 → cfg.MIN_CONTENT_LENGTH = 50 →
      ∃ st1 r1 r2 r3, processHTMLPage cfg w st url = some st1 ∧
        st1.scrapedData = st.scrapedData ++ [r1, r2, r3] ∧
        r1.chunk_index = some 1 ∧ r2.chunk_index = some 2 ∧ r3.chunk_index = some 3 ∧
        r1.total_chunks = some 3 ∧ r2.total_chunks = some 3 ∧ r3.total_chunks = some 3) := by
  -- the general statement, kept for the instance below
  have general : ∀ text, cleanHtmlContent w page.content url = text →
      (∀ i, i * cfg.CHUNK_SIZE < (split text).length →
        cfg.MIN_CONTENT_LENGTH ≤
          (join (slice (split text) (i * cfg.CHUNK_SIZE)
            (i * cfg.CHUNK_SIZE + cfg.CHUNK_SIZE))).length) →
      ∃ chunks st1,
        chunkText cfg text cfg.CHUNK_SIZE = some chunks ∧
        chunks.length = ((split text).length + cfg.CHUNK_SIZE - 1) / cfg.CHUNK_SIZE ∧
        processHTMLPage cfg w st url = some st1 ∧
        st1.scrapedData = st.scrapedData ++
          List.zipWith (htmlRecord url (recordLanguage w.franc text url) chunks) chunks
            (List.range' 0 chunks.length) := by
    intro text htext hkeep
    obtain ⟨chunks, hchunks, hcount⟩ :=
      chunkText_length_of_all_kept cfg text cfg.CHUNK_SIZE hk hkeep
    have hpos : 0 < (split text).length := List.length_pos.2 (split_ne_nil text)
    have hlen : cfg.MIN_CONTENT_LENGTH ≤ text.length := by
      have h0 := hkeep 0 (by simpa using hpos)
      have h1 := join_length_le_of_sublist
        (slice_sublist (split text) (0 * cfg.CHUNK_SIZE) (0 * cfg.CHUNK_SIZE + cfg.CHUNK_SIZE))
      rw [join_split] at h1
      omega
    subst htext
    obtain ⟨st1, hst1, hdata⟩ :=
      processHTMLPage_records cfg w st url page chunks hgoto hlen hchunks
    exact ⟨chunks, st1, hchunks, hcount, hst1, hdata⟩
  constructor
  · intro hkeep
    obtain ⟨chunks, st1, hchunks, hcount, hst1, hdata⟩ := general _ rfl hkeep
    refine ⟨chunks, st1, _, hchunks, hcount, hst1, hdata, ?_, ?_⟩
    · simp
    · intro j r hr
      rw [getElem?_zipWith_range'] at hr
      cases hc : chunks[j]? with
      | none => rw [hc] at hr; simp at hr
      | some c =>
        rw [hc] at hr
        simp only [Option.map_some', Option.some.injEq, Nat.zero_add] at hr
        subst hr
        refine ⟨rfl, ?_, ?_⟩
        · show (if chunks.length > 1 then some (j + 1) else none) = _
          by_cases h2 : 2 ≤ chunks.length
          · rw [if_pos h2, if_pos (by omega)]
          · rw [if_neg h2, if_neg (by omega)]
        · show (if chunks.length > 1 then some chunks.length else none) = _
          by_cases h2 : 2 ≤ chunks.length
          · rw [if_pos h2, if_pos (by omega)]
          · rw [if_neg h2, if_neg (by omega)]
  · intro words hn hwords htext hsize hmin
    have hne : words ≠ [] := by
      intro h; rw [h] at hn; simp at hn
    have hsplit : split (join words) = words :=
      split_join words hne (fun v hv => (hwords v hv).2)
    have hkeep : ∀ i, i * cfg.CHUNK_SIZE < (split (join words)).length →
        cfg.MIN_CONTENT_LENGTH ≤
          (join (slice (split (join words)) (i * cfg.CHUNK_SIZE)
            (i * cfg.CHUNK_SIZE + cfg.CHUNK_SIZE))).length := by
      intro i hi
      rw [hsplit] at hi ⊢
      rw [hn, hsize] at hi
      have hgroup := length_le_join_length (slice words (i * cfg.CHUNK_SIZE)
        (i * cfg.CHUNK_SIZE + cfg.CHUNK_SIZE))
        (fun v hv => (hwords v ((slice_sublist _ _ _).subset hv)).1)
      rw [slice_length, hn] at hgroup
      rw [hmin]
      rw [hsize] at hgroup ⊢
      omega
    obtain ⟨chunks, st1, -, hcount, hst1, hdata⟩ := general (join words) htext hkeep
    rw [hsplit, hn, hsize] at hcount
    have h3 : chunks.length = 3 := by rw [hcount]
    obtain ⟨c1, c2, c3, rfl⟩ := List.length_eq_three.1 h3
    refine ⟨st1, _, _, _, hst1, hdata, ?_, ?_, ?_, ?_, ?_, ?_⟩ <;> rfl

/-- Witness for the amended C11: the two-word page of `demoWorld` with one word per chunk, and
a page of 1200 one-letter words with the values of `src/config.js`. -/
theorem chunk_count_records_witness :
    (∃ chunks st1 appended,
      chunkText demoConfig demoText 1 = some chunks ∧ chunks.length = 2 ∧
      processHTMLPage demoConfig demoWorld StandardBankScraper.new demoConfig.BASE_URL =
        some st1 ∧
      st1.scrapedData = StandardBankScraper.new.scrapedData ++ appended ∧
      appended.length = chunks.length ∧
      ∀ j r, appended[j]? = some r →
        some r.content = chunks[j]? ∧
        r.chunk_index = (if 2 ≤ chunks.length then some (j + 1) else none) ∧
        r.total_chunks = (if 2 ≤ chunks.length then some chunks.length else none)) ∧
    (∃ st1 r1 r2 r3,
      processHTMLPage CONFIG (pageWorld (join (letterWords 1200)) []) StandardBankScraper.new
        CONFIG.BASE_URL = some st1 ∧
      st1.scrapedData = StandardBankScraper.new.scrapedData ++ [r1, r2, r3] ∧
      r1.chunk_index = some 1 ∧ r2.chunk_index = some 2 ∧ r3.chunk_index = some 3 ∧
      r1.total_chunks = some 3 ∧ r2.total_chunks = some 3 ∧ r3.total_chunks = some 3) :=
  ⟨(chunk_count_records demoConfig demoWorld StandardBankScraper.new demoConfig.BASE_URL
      { content := demoText,
        links := some [str "https://www.standardbank.co.mz/a",
                       str "https://www.standardbank.co.mz/b"] }
      rfl (by decide)).1 (by
        intro i hi
        have h2 : (split (cleanHtmlContent demoWorld demoText demoConfig.BASE_URL)).length = 2 := by
          decide
        rw [h2] at hi
        have hc : demoConfig.CHUNK_SIZE = 1 := rfl
        rw [hc] at hi ⊢
        have : i = 0 ∨ i = 1 := by omega
        rcases this with rfl | rfl <;> decide),
    (chunk_count_records CONFIG (pageWorld (join (letterWords 1200)) []) StandardBankScraper.new
      CONFIG.BASE_URL { content := join (letterWords 1200), links := some [] }
      rfl (by decide)).2 (letterWords 1200) (List.length_replicate 1200 [97])
      (by
        intro v hv
        rw [letterWords, List.mem_replicate] at hv
        rw [hv.2]
        decide)
      (cleanText_letterWords 1199) rfl rfl⟩

/-- Evaluation for claim C12 (scope rule over the whole link handling): a page links to
`https://evil.example.com/b.pdf`, whose host name does not contain `TARGET_DOMAIN`.
`addLinksToQueue` rejects the link, but the PDF-link pass of `processHTMLPage` pushes it: the
queue after the page is `["https://evil.example.com/b.pdf"]`. -/
theorem pdf_pass_admits_foreign_host :
    simpleURL (str "https://evil.example.com/b.pdf") none =
      some { href := str "https://evil.example.com/b.pdf", hostname := str "evil.example.com" } ∧
    includes (str "evil.example.com") CONFIG.TARGET_DOMAIN = false ∧
    (addLinksToQueue CONFIG (linkWorld [str "https://evil.example.com/b.pdf"])
      (markVisited StandardBankScraper.new CONFIG.BASE_URL)
      [str "https://evil.example.com/b.pdf"] CONFIG.BASE_URL).urlQueue = [] ∧
    (processHTMLPage CONFIG (linkWorld [str "https://evil.example.com/b.pdf"])
      (markVisited StandardBankScraper.new CONFIG.BASE_URL) CONFIG.BASE_URL).map
        (fun st1 => st1.urlQueue) = some [str "https://evil.example.com/b.pdf"] := by
  decide

/-- Evaluation for claim C13 (dedup rule over the whole link handling): from an empty queue, a
page links to `https://www.standardbank.co.mz/doc.pdf`.  `addLinksToQueue` queues the URL and
the PDF-link pass of `processHTMLPage`, which tests `visitedUrls` only, pushes it again: the
queue after the page holds the URL twice. -/
theorem pdf_pass_requeues_queued_url :
    (markVisited StandardBankScraper.new CONFIG.BASE_URL).urlQueue.Nodup ∧
    (addLinksToQueue CONFIG (linkWorld [str "https://www.standardbank.co.mz/doc.pdf"])
      (markVisited StandardBankScraper.new CONFIG.BASE_URL)
      [str "https://www.standardbank.co.mz/doc.pdf"] CONFIG.BASE_URL).urlQueue =
        [str "https://www.standardbank.co.mz/doc.pdf"] ∧
    (processHTMLPage CONFIG (linkWorld [str "https://www.standardbank.co.mz/doc.pdf"])
      (markVisited StandardBankScraper.new CONFIG.BASE_URL) CONFIG.BASE_URL).map
        (fun st1 => st1.urlQueue) =
      some [str "https://www.standardbank.co.mz/doc.pdf",
            str "https://www.standardbank.co.mz/doc.pdf"] ∧
    ¬ [str "https://www.standardbank.co.mz/doc.pdf",
       str "https://www.standardbank.co.mz/doc.pdf"].Nodup := by
  decide

/-- Claim C14 (at-most-once dispatch).  In every run of the crawl loop, from every state
(whatever the queue holds, duplicates included), under every completion order of the tasks and
for every behaviour of the pages (failures included): the URLs dispatched over all batches are
pairwise distinct and none of them was visited at the start; every URL of a batch is in
`visitedUrls` in the state in which the tasks of the batch start to run; and at the end
`visitedUrls` is the initial set followed by the dispatched URLs.  The statement holds for
every amount of fuel, so for every prefix of a run that does not end. -/
theorem dispatch_at_most_once (cfg : Config) (w : World) (schedules : List (List Nat))
    (fuel : Nat) (st : StandardBankScraper) :
    ((crawlRun cfg w schedules fuel st).1.map Prod.snd).flatten.Nodup ∧
    (∀ u ∈ ((crawlRun cfg w schedules fuel st).1.map Prod.snd).flatten, u ∉ st.visitedUrls) ∧
    (∀ e ∈ (crawlRun cfg w schedules fuel st).1, ∀ u ∈ e.2,
      u ∈ (batchLoop cfg.MAX_CONCURRENT_PAGES e.1.urlQueue e.1 []).2.visitedUrls) ∧
    (∀ st1, (crawlRun cfg w schedules fuel st).2 = some st1 →
      st1.visitedUrls =
        st.visitedUrls ++ ((crawlRun cfg w schedules fuel st).1.map Prod.snd).flatten) := by
  induction fuel generalizing schedules st with
  | zero => simp [crawlRun]
  | succ fuel ih =>
    rw [crawlRun]
    by_cases hc : st.urlQueue.length > 0 ∧ st.scrapedData.length < cfg.MAX_PAGES
    · rw [if_pos hc]
      dsimp only
      obtain ⟨new, h1, h2, -, h4, h5, -, -⟩ :=
        batchLoop_spec cfg.MAX_CONCURRENT_PAGES st.urlQueue st []
      rw [List.nil_append] at h1
      have hmark : ∀ u ∈ (batchLoop cfg.MAX_CONCURRENT_PAGES st.urlQueue st []).1,
          u ∈ (batchLoop cfg.MAX_CONCURRENT_PAGES st.urlQueue st []).2.visitedUrls := by
        intro u hu
        rw [h2, ← h1]
        exact List.mem_append_right _ hu
      cases hr : runSchedule (schedules.headD [])
          ((batchLoop cfg.MAX_CONCURRENT_PAGES st.urlQueue st []).1.map (taskSegments cfg w))
          (batchLoop cfg.MAX_CONCURRENT_PAGES st.urlQueue st []).2 with
      | none =>
        dsimp only
        rw [h1] at hmark ⊢
        refine ⟨by simpa using h4, by simpa using h5, ?_, by simp⟩
        intro e he u hu
        rw [List.mem_singleton] at he
        subst he
        exact hmark u hu
      | some st2 =>
        dsimp only
        have hv2 : st2.visitedUrls = st.visitedUrls ++ new := by
          rw [runSchedule_batch_visitedUrls cfg w _ _ _ st2 hr, h2]
        obtain ⟨i1, i2, i3, i4⟩ := ih schedules.tail st2
        rw [h1] at hmark ⊢
        simp only [List.map_cons, List.flatten_cons]
        refine ⟨?_, ?_, ?_, ?_⟩
        · refine List.nodup_append.2 ⟨h4, i1, ?_⟩
          intro u hu1 hu2
          exact i2 u hu2 (by rw [hv2]; exact List.mem_append_right _ hu1)
        · intro u hu
          rcases List.mem_append.1 hu with hu | hu
          · exact h5 u hu
          · intro hmem
            exact i2 u hu (by rw [hv2]; exact List.mem_append_left _ hmem)
        · intro e he u hu
          rcases List.mem_cons.1 he with rfl | he
          · exact hmark u hu
          · exact i3 e he u hu
        · intro st1 hst1
          rw [i4 st1 hst1, hv2, List.append_assoc]
    · rw [if_neg hc]
      simp

/-- Witness for C14: a queue that holds the seed three times; the seed is dispatched once. -/
theorem dispatch_at_most_once_witness :
    (crawlRun { CONFIG with CHUNK_SIZE := 1 } demoWorld [[1, 0, 1, 0]] 3 dupQueueStart).1.map
        Prod.snd =
      [[CONFIG.BASE_URL, str "https://www.standardbank.co.mz/a"],
       [str "https://www.standardbank.co.mz/b"]] ∧
    ((crawlRun { CONFIG with CHUNK_SIZE := 1 } demoWorld [[1, 0, 1, 0]] 3 dupQueueStart).1.map
        Prod.snd).flatten.Nodup :=
  ⟨by decide,
    (dispatch_at_most_once { CONFIG with CHUNK_SIZE := 1 } demoWorld [[1, 0, 1, 0]] 3
      dupQueueStart).1⟩

/-- Counterexample to C15 as stated: with `MAX_PAGES = 1` and one word per chunk, the seed page
of `demoWorld` yields two chunks, and the run of `scrape` ends with two records. -/
theorem page_cap_overshoot :
    ∃ st1 batches, scrape demoConfig demoWorld 2 = some (st1, batches) ∧
      demoConfig.MAX_PAGES = 1 ∧ st1.scrapedData.length = 2 ∧
      ¬ st1.scrapedData.length ≤ demoConfig.MAX_PAGES :=
  ⟨demoAfterSeed, [[demoConfig.BASE_URL]], by decide, rfl, by decide, by decide⟩

/-- Claim C15 as amended (page cap).  In every run of the crawl loop, under every completion
order, a batch is built only in a state with fewer than `MAX_PAGES` records; once `scrapedData`
holds `MAX_PAGES` records or more, the loop stops without a further dispatch.  The records that
the tasks of one batch append are not bounded by the cap. -/
theorem page_cap_between_batches (cfg : Config) (w : World) (schedules : List (List Nat))
    (fuel : Nat) (st : StandardBankScraper) :
    (∀ e ∈ (crawlRun cfg w schedules fuel st).1, e.1.scrapedData.length < cfg.MAX_PAGES) ∧
    (cfg.MAX_PAGES ≤ st.scrapedData.length →
      crawlRun cfg w schedules (fuel + 1) st = ([], some st)) := by
  constructor
  · induction fuel generalizing schedules st with
    | zero => simp [crawlRun]
    | succ fuel ih =>
      rw [crawlRun]
      by_cases hc : st.urlQueue.length > 0 ∧ st.scrapedData.length < cfg.MAX_PAGES
      · rw [if_pos hc]
        dsimp only
        cases runSchedule (schedules.headD [])
            ((batchLoop cfg.MAX_CONCURRENT_PAGES st.urlQueue st []).1.map (taskSegments cfg w))
            (batchLoop cfg.MAX_CONCURRENT_PAGES st.urlQueue st []).2 with
        | none =>
          dsimp only
          intro e he
          rw [List.mem_singleton] at he
          subst he
          exact hc.2
        | some st2 =>
          dsimp only
          intro e he
          rcases List.mem_cons.1 he with rfl | he
          · exact hc.2
          · exact ih schedules.tail st2 e he
      · rw [if_neg hc]
        simp
  · intro hcap
    rw [crawlRun, if_neg]
    omega

/-- Witness for the amended C15: with `MAX_PAGES = 1` one batch is built, from a state without
records. -/
theorem page_cap_between_batches_witness :
    (crawlRun demoConfig demoWorld [] 2 dupQueueStart).1.length = 1 ∧
    ∀ e ∈ (crawlRun demoConfig demoWorld [] 2 dupQueueStart).1,
      e.1.scrapedData.length < demoConfig.MAX_PAGES :=
  ⟨by decide, (page_cap_between_batches demoConfig demoWorld [] 2 dupQueueStart).1⟩

/-- Claim C16 (batch width).  For every queue and every state, the inner loop of `scrape`
dispatches at most `MAX_CONCURRENT_PAGES` tasks.  In every run of the crawl loop, under every
completion order, every batch is the result of that loop on the state in which it is built and
has at most `MAX_CONCURRENT_PAGES` tasks; and the state in which the next batch is built is the
state reached when every task of the current batch has run all its pieces.  So the tasks in
flight are tasks of the current batch, at most `MAX_CONCURRENT_PAGES`. -/
theorem batch_width (cfg : Config) (w : World) (schedules : List (List Nat)) (fuel : Nat)
    (st : StandardBankScraper) :
    (∀ (queue : List Str) (s : StandardBankScraper),
      (batchLoop cfg.MAX_CONCURRENT_PAGES queue s []).1.length ≤ cfg.MAX_CONCURRENT_PAGES) ∧
    (∀ e ∈ (crawlRun cfg w schedules fuel st).1,
      e.2 = (batchLoop cfg.MAX_CONCURRENT_PAGES e.1.urlQueue e.1 []).1 ∧
      e.2.length ≤ cfg.MAX_CONCURRENT_PAGES) ∧
    List.Chain'
      (fun e1 e2 : StandardBankScraper × List Str =>
        ∃ schedule, runSchedule schedule (e1.2.map (taskSegments cfg w))
          (batchLoop cfg.MAX_CONCURRENT_PAGES e1.1.urlQueue e1.1 []).2 = some e2.1)
      (crawlRun cfg w schedules fuel st).1 := by
  have hwidth : ∀ (queue : List Str) (s : StandardBankScraper),
      (batchLoop cfg.MAX_CONCURRENT_PAGES queue s []).1.length ≤ cfg.MAX_CONCURRENT_PAGES := by
    intro queue s
    obtain ⟨new, -, -, -, -, -, -, h7⟩ := batchLoop_spec cfg.MAX_CONCURRENT_PAGES queue s []
    exact h7 (Nat.zero_le _)
  refine ⟨hwidth, ?_, ?_⟩
  · induction fuel generalizing schedules st with
    | zero => simp [crawlRun]
    | succ fuel ih =>
      rw [crawlRun]
      by_cases hc : st.urlQueue.length > 0 ∧ st.scrapedData.length < cfg.MAX_PAGES
      · rw [if_pos hc]
        dsimp only
        cases runSchedule (schedules.headD [])
            ((batchLoop cfg.MAX_CONCURRENT_PAGES st.urlQueue st []).1.map (taskSegments cfg w))
            (batchLoop cfg.MAX_CONCURRENT_PAGES st.urlQueue st []).2 with
        | none =>
          dsimp only
          intro e he
          rw [List.mem_singleton] at he
          subst he
          exact ⟨rfl, hwidth _ _⟩
        | some st2 =>
          dsimp only
          intro e he
          rcases List.mem_cons.1 he with rfl | he
          · exact ⟨rfl, hwidth _ _⟩
          · exact ih schedules.tail st2 e he
      · rw [if_neg hc]
        simp
  · induction fuel generalizing schedules st with
    | zero => simp [crawlRun]
    | succ fuel ih =>
      rw [crawlRun]
      by_cases hc : st.urlQueue.length > 0 ∧ st.scrapedData.length < cfg.MAX_PAGES
      · rw [if_pos hc]
        dsimp only
        cases hr : runSchedule (schedules.headD [])
            ((batchLoop cfg.MAX_CONCURRENT_PAGES st.urlQueue st []).1.map (taskSegments cfg w))
            (batchLoop cfg.MAX_CONCURRENT_PAGES st.urlQueue st []).2 with
        | none =>
          dsimp only
          exact List.chain'_singleton _
        | some st2 =>
          dsimp only
          rw [List.chain'_cons']
          refine ⟨?_, ih schedules.tail st2⟩
          intro e he
          rw [crawlRun_head cfg w schedules.tail fuel st2 e he]
          exact ⟨schedules.headD [], hr⟩
      · rw [if_neg hc]
        exact List.chain'_nil

/-- Witness for C16: with a batch width of one, three batches of one task each. -/
theorem batch_width_witness :
    (crawlRun { CONFIG with MAX_CONCURRENT_PAGES := 1 } demoWorld [] 3 dupQueueStart).1.map
        Prod.snd =
      [[CONFIG.BASE_URL], [str "https://www.standardbank.co.mz/a"],
       [str "https://www.standardbank.co.mz/b"]] ∧
    ∀ e ∈ (crawlRun { CONFIG with MAX_CONCURRENT_PAGES := 1 } demoWorld [] 3 dupQueueStart).1,
      e.2 = (batchLoop 1 e.1.urlQueue e.1 []).1 ∧ e.2.length ≤ 1 :=
  ⟨by decide,
    (batch_width { CONFIG with MAX_CONCURRENT_PAGES := 1 } demoWorld [] 3 dupQueueStart).2.1⟩

/-- Counterexample to C17 as stated: `main` matches one element without text and `article`
matches an element with the text `Hello`; the search stops at `main`, the empty result sends
the function to the body, and the cleaned content is `junkHello`, not the text of `article`. -/
theorem main_content_empty_match_blocks :
    emptyMainDom (str "main") = [[]] ∧
    selectionText (emptyMainDom (str "article")) = str "Hello" ∧
    selectMainContent emptyMainDom = str "junkHello" ∧
    cleanHtmlContentDom (fun _ => emptyMainDom) [] [] = str "junkHello" ∧
    cleanHtmlContentDom (fun _ => emptyMainDom) [] [] ≠
      cleanText (selectionText (emptyMainDom (str "article"))) := by
  decide

/-- Claim C17 as amended (main-content selection).  For every document: `cleanHtmlContent`
stops at the first selector, in the order `main`, `[role="main"]`, `.main-content`, `.content`,
`.page-content`, `article`, `.article-content`, that matches at least one element; the main
content is the text of that match, or the text of the whole body when that text is empty; when
no selector matches, it is the text of the body.  (A lower-priority selector is never consulted
once a higher-priority one has matched.) -/
theorem main_content_selection (load : Str → Dom) (html url : Str) :
    (∀ (pre : List Str) (s : Str) (post : List Str), contentSelectors = pre ++ s :: post →
      (∀ p ∈ pre, load html p = []) → load html s ≠ [] →
      cleanHtmlContentDom load html url =
        cleanText (if selectionText (load html s) = [] then selectionText (load html (str "body"))
          else selectionText (load html s))) ∧
    ((∀ p ∈ contentSelectors, load html p = []) →
      cleanHtmlContentDom load html url = cleanText (selectionText (load html (str "body")))) := by
  constructor
  · intro pre s post hsel hpre hs
    unfold cleanHtmlContentDom selectMainContent
    dsimp only
    rw [hsel, selectLoop_first_match (load html) s post pre hpre hs]
  · intro hnone
    unfold cleanHtmlContentDom selectMainContent
    dsimp only
    rw [selectLoop_no_match (load html) contentSelectors hnone, if_pos rfl]

/-- Witness for the amended C17: the document `emptyMainDom`, in which the first selector
matches. -/
theorem main_content_selection_witness :
    cleanHtmlContentDom (fun _ => emptyMainDom) [] [] =
      cleanText (if selectionText (emptyMainDom (str "main")) = [] then
          selectionText (emptyMainDom (str "body"))
        else selectionText (emptyMainDom (str "main"))) :=
  (main_content_selection (fun _ => emptyMainDom) [] []).1 [] (str "main")
    [str "[role=" ++ 34 :: str "main" ++ 34 :: str "]", str ".main-content",
     str ".content", str ".page-content", str "article", str ".article-content"]
    rfl (by simp) (by decide)

/-- Claim C18 (minimum content length of every record).  With `CHUNK_SIZE ≥ 1`,
`processHTMLPage` and `processPDF` return, and every record that they append to `scrapedData`
has a content of at least `MIN_CONTENT_LENGTH` code units, whether `chunkText` returned word
groups or fell back to the whole text; a document whose cleaned text is shorter than
`MIN_CONTENT_LENGTH` appends no record. -/
theorem record_min_length (cfg : Config) (w : World) (st : StandardBankScraper) (url : Str)
    (hk : 1 ≤ cfg.CHUNK_SIZE) :
    (∃ st1 appended, processHTMLPage cfg w st url = some st1 ∧
      st1.scrapedData = st.scrapedData ++ appended ∧
      (∀ r ∈ appended, cfg.MIN_CONTENT_LENGTH ≤ r.content.length) ∧
      (∀ page, w.goto url = some page →
        (cleanHtmlContent w page.content url).length < cfg.MIN_CONTENT_LENGTH →
        appended = [])) ∧
    (∃ st1 appended, processPDF cfg w st url = some st1 ∧
      st1.scrapedData = st.scrapedData ++ appended ∧
      (∀ r ∈ appended, cfg.MIN_CONTENT_LENGTH ≤ r.content.length) ∧
      (∀ text filename pages,
        downloadAndProcessPDF w url cfg.BASE_URL = PdfResult.ok text filename pages →
        text.length < cfg.MIN_CONTENT_LENGTH → appended = [])) := by
  constructor
  · cases hg : w.goto url with
    | none =>
      refine ⟨st, [], ?_, by simp, by simp, by simp⟩
      unfold processHTMLPage
      rw [hg]
    | some page =>
      by_cases hlen : cfg.MIN_CONTENT_LENGTH ≤ (cleanHtmlContent w page.content url).length
      · obtain ⟨chunks, hchunks, hmin⟩ :=
          chunkText_min_length cfg _ cfg.CHUNK_SIZE hk hlen
        obtain ⟨st1, hst1, hdata⟩ :=
          processHTMLPage_records cfg w st url page chunks hg hlen hchunks
        refine ⟨st1, _, hst1, hdata, ?_, ?_⟩
        · intro r hr
          exact hmin _ (zipWith_htmlRecord_content _ _ _ r hr)
        · intro page2 hp2 hshort
          rw [Option.some.injEq] at hp2
          subst hp2
          omega
      · have hrun : ∃ st1, processHTMLPage cfg w st url = some st1 ∧
            st1.scrapedData = st.scrapedData := by
          unfold processHTMLPage
          rw [hg]
          dsimp only
          rw [if_neg hlen]
          dsimp only
          cases page.links with
          | none => exact ⟨_, rfl, rfl⟩
          | some links =>
            exact ⟨_, rfl, by rw [addPdfLinks_scrapedData, addLinksToQueue_scrapedData]⟩
        obtain ⟨st1, hst1, hdata⟩ := hrun
        exact ⟨st1, [], hst1, by simpa using hdata, by simp, by simp⟩
  · unfold processPDF
    cases hd : downloadAndProcessPDF w url cfg.BASE_URL with
    | failed => exact ⟨st, [], rfl, by simp, by simp, by simp⟩
    | ok text filename pages =>
      dsimp only
      by_cases hlen : cfg.MIN_CONTENT_LENGTH ≤ text.length
      · obtain ⟨chunks, hchunks, hmin⟩ :=
          chunkText_min_length cfg text cfg.CHUNK_SIZE hk hlen
        rw [if_pos hlen, hchunks]
        dsimp only
        refine ⟨_, _, rfl, by rw [pushRecords_eq], ?_, ?_⟩
        · intro r hr
          exact hmin _ (zipWith_pdfRecord_content _ _ _ _ _ r hr)
        · intro text2 filename2 pages2 heq hshort
          simp only [PdfResult.ok.injEq] at heq
          obtain ⟨rfl, -, -⟩ := heq
          omega
      · rw [if_neg hlen]
        exact ⟨st, [], rfl, by simp, by simp, by simp⟩

/-- Witness for C18: a page of two words of thirty code units with one word per chunk; every
word group is dropped, `chunkText` falls back to the whole text of 61 code units. -/
theorem record_min_length_witness :
    chunkText demoConfig shortWordsText 1 = some [shortWordsText] ∧
    ∃ st1 appended,
      processHTMLPage demoConfig (pageWorld shortWordsText []) StandardBankScraper.new
        demoConfig.BASE_URL = some st1 ∧
      st1.scrapedData = StandardBankScraper.new.scrapedData ++ appended ∧
      (∀ r ∈ appended, demoConfig.MIN_CONTENT_LENGTH ≤ r.content.length) ∧
      (∀ page, (pageWorld shortWordsText []).goto demoConfig.BASE_URL = some page →
        (cleanHtmlContent (pageWorld shortWordsText []) page.content
          demoConfig.BASE_URL).length < demoConfig.MIN_CONTENT_LENGTH →
        appended = []) :=
  ⟨by decide,
    (record_min_length demoConfig (pageWorld shortWordsText []) StandardBankScraper.new
      demoConfig.BASE_URL (by decide)).1⟩

end WebscraperJS
